import Mathlib

/-!
Verification development for the dynamic-form engine: schema synthesis
(`fieldSchemas.ts`, `generateSchema.ts`), the dot-path nested-shape compiler
(`nestedPaths.ts`), the JSON-Logic rule evaluator, the visibility engine, the
dependency/cascading-reset logic of `DynamicForm.tsx`, and the
visibility-aware resolver.  Pure functions are embedded as Lean functions;
JavaScript runtime capabilities that cannot be embedded (the `RegExp`
constructor and `test`, the zod email check) are abstracted as an explicit
oracle parameter.
-/

set_option autoImplicit false

namespace DynForm

/-- JavaScript-style values as they appear in form data and rule evaluation.
Numbers are modelled as integers (the claims under study never depend on
fractional or IEEE behaviour). -/
inductive JValue where
  | jundefined
  | jnull
  | jbool (b : Bool)
  | jnum (n : Int)
  | jstr (s : String)
  | jobj (fields : List (String × JValue))
  deriving Repr

mutual

/-- Structural equality of values, standing in for JavaScript `===` (the
engine only ever compares primitive field values). -/
def jvalBeq : JValue → JValue → Bool
  | .jundefined, .jundefined => true
  | .jnull, .jnull => true
  | .jbool a, .jbool b => a == b
  | .jnum a, .jnum b => a == b
  | .jstr a, .jstr b => a == b
  | .jobj a, .jobj b => jfieldsBeq a b
  | _, _ => false

/-- Structural equality of object field lists (order-sensitive). -/
def jfieldsBeq : List (String × JValue) → List (String × JValue) → Bool
  | [], [] => true
  | (k, v) :: r, (k', v') :: r' => k == k' && jvalBeq v v' && jfieldsBeq r r'
  | _, _ => false

end

instance : BEq JValue := ⟨jvalBeq⟩

/-- First-match association-list lookup, the embedding of JavaScript property
access `obj[key]` on a plain object (absent key gives `none` / undefined). -/
def lookupJ (k : String) : List (String × JValue) → Option JValue
  | [] => none
  | (k', v) :: rest => if k' = k then some v else lookupJ k rest

/-- JavaScript truthiness: `undefined`, `null`, `false`, `0` and `""` are
falsy; objects are always truthy. -/
def truthy : JValue → Bool
  | .jundefined => false
  | .jnull => false
  | .jbool b => b
  | .jnum n => n != 0
  | .jstr s => s != ""
  | .jobj _ => true

/-- Abstraction of the JavaScript runtime capabilities used by the engine:
whether a pattern string is accepted by `new RegExp`, what a compiled regex's
`test` returns, and what zod's structural email check returns.  The engine's
control flow depends only on these three functions. -/
structure JsOracle where
  regexValid : String → Bool
  regexTest : String → String → Bool
  emailTest : String → Bool

/-- A concrete oracle (rejects every pattern and every email), used to
instantiate theorems at concrete inputs. -/
def noOracle : JsOracle :=
  { regexValid := fun _ => false
    regexTest := fun _ _ => false
    emailTest := fun _ => false }

/-- A concrete oracle that accepts every pattern, every string and every
email, used to instantiate theorems at concrete inputs. -/
def yesOracle : JsOracle :=
  { regexValid := fun _ => true
    regexTest := fun _ _ => true
    emailTest := fun _ => true }

/-! ## The zod subset used by `fieldSchemas.ts`

`buildBaseSchema` only ever produces `z.string()` (possibly with `.email()`),
`z.boolean()` (possibly with a must-be-true `.refine`) and `z.unknown()`;
`applyStringValidation` chains `.min`, `.max` and `.regex` checks onto a
string schema.  A string schema is therefore a list of checks, a boolean
schema a single must-be-true flag. -/

/-- One check chained onto a `z.string()` schema. -/
inductive StrCheck where
  | minLen (n : Nat) (msg : String)
  | maxLen (n : Nat) (msg : String)
  | email (msg : String)
  | regexCheck (pattern : String) (msg : String)
  deriving Repr, DecidableEq

/-- Embedding of a `z.ZodString` as its ordered list of checks. -/
structure ZodString where
  checks : List StrCheck
  deriving Repr, DecidableEq

/-- Embedding of a `z.ZodBoolean`, possibly refined to "must equal true". -/
structure ZodBool where
  mustBeTrue : Bool
  deriving Repr, DecidableEq

/-- The zod schemas that `buildFieldSchema` can produce. -/
inductive ZodSchema where
  | zstr (s : ZodString)
  | zbool (b : ZodBool)
  | zunknown
  deriving Repr, DecidableEq

/-- Whether a string passes one chained check.  `.min`/`.max` compare the
string length inclusively; `email` and `regex` consult the runtime oracle. -/
def strCheckOk (o : JsOracle) (s : String) : StrCheck → Bool
  | .minLen n _ => n ≤ s.length
  | .maxLen n _ => s.length ≤ n
  | .email _ => o.emailTest s
  | .regexCheck p _ => o.regexTest p s

/-- Whether a value passes a field schema: strings must be strings passing
every chained check, booleans must be booleans (and `true` when refined),
`z.unknown()` accepts anything. -/
def zodAccepts (o : JsOracle) : ZodSchema → JValue → Bool
  | .zstr zs, .jstr s => zs.checks.all (strCheckOk o s)
  | .zstr _, _ => false
  | .zbool zb, .jbool b => !zb.mustBeTrue || b
  | .zbool _, _ => false
  | .zunknown, _ => true

/-! ## `ValidationConfig` and field elements (from `types/validation.ts`,
`types/elements.ts`) -/

/-- A JSON-Logic rule: a literal or an operator node.  The concrete JSON
encoding `{ op: args }` is abstracted to the operator name plus argument
list (the form the spec's §3 gives). -/
inductive Rule where
  | lit (v : JValue)
  | node (op : String) (args : List Rule)
  deriving Repr

/-- The `ValidationConfig` shape from `types/validation.ts`.  `required` is
`boolean | undefined` in the source; both falsy states collapse to `false`. -/
structure ValidationConfig where
  required : Bool := false
  minLength : Option Nat := none
  maxLength : Option Nat := none
  pattern : Option String := none
  message : Option String := none
  condition : Option Rule := none

/-- A field element (the claims never depend on a custom element's
`component`/`componentProps`, so those are not carried). -/
structure Field where
  type : String
  name : String
  label : Option String := none
  placeholder : Option String := none
  defaultValue : Option JValue := none
  validation : Option ValidationConfig := none
  visible : Option Rule := none
  dependsOn : Option String := none
  resetOnParentChange : Option Bool := none

/-- The form-element tree: fields, containers (columns and/or children) and
columns. -/
inductive FormElement where
  | field (f : Field)
  | container (visible : Option Rule) (columns : List FormElement)
      (children : List FormElement)
  | column (width : String) (visible : Option Rule)
      (elements : List FormElement)

/-! ## `fieldSchemas.ts` (code under src/) -/

/-- `buildBaseSchema` from `fieldSchemas.ts`: base zod schema per field
type. -/
def buildBaseSchema : String → ZodSchema
  | "text" => .zstr ⟨[]⟩
  | "phone" => .zstr ⟨[]⟩
  | "email" => .zstr ⟨[.email "Invalid email address"]⟩
  | "boolean" => .zbool ⟨false⟩
  | "date" => .zstr ⟨[]⟩
  | "custom" => .zunknown
  | _ => .zunknown

/-- `applyStringValidation` from `fieldSchemas.ts`.  Chains required
(`.min 1`), `minLength`, `maxLength` and `pattern` checks in source order.
An invalid regex pattern (where `new RegExp` would throw) is skipped with a
`console.warn`; the warning messages are returned alongside the schema.  A
present-but-empty pattern string is falsy in JavaScript and skipped by the
`if (validation.pattern)` guard. -/
def applyStringValidation (o : JsOracle) (schema : ZodString)
    (v : ValidationConfig) : ZodString × List String :=
  let r := schema
  let r := if v.required then ⟨r.checks ++ [.minLen 1 "This field is required"]⟩ else r
  let r := match v.minLength with
    | some n => (⟨r.checks ++ [.minLen n s!"Must be at least {n} characters"]⟩ : ZodString)
    | none => r
  let r := match v.maxLength with
    | some n => (⟨r.checks ++ [.maxLen n s!"Must be no more than {n} characters"]⟩ : ZodString)
    | none => r
  match v.pattern with
  | some p =>
      if p = "" then (r, [])
      else if o.regexValid p then
        (⟨r.checks ++ [.regexCheck p ((v.message).getD "Invalid format")]⟩, [])
      else (r, [s!"Invalid regex pattern: {p}"])
  | none => (r, [])

/-- `applyBooleanValidation` from `fieldSchemas.ts`: a required boolean is
refined to "must equal true". -/
def applyBooleanValidation (schema : ZodBool) (v : ValidationConfig) : ZodBool :=
  if v.required then ⟨true⟩ else schema

/-- `applyValidationRules` from `fieldSchemas.ts`: dispatch on the field
type.  In the source the schema is cast to `ZodString`/`ZodBoolean`; within
`buildFieldSchema` the base schema always matches the field type, so the
embedding matches on both. -/
def applyValidationRules (o : JsOracle) (schema : ZodSchema)
    (v : ValidationConfig) (fieldType : String) : ZodSchema × List String :=
  if fieldType = "text" ∨ fieldType = "phone" ∨ fieldType = "email" ∨ fieldType = "date" then
    match schema with
    | .zstr zs =>
        let (zs', warns) := applyStringValidation o zs v
        (.zstr zs', warns)
    | s => (s, [])
  else if fieldType = "boolean" then
    match schema with
    | .zbool zb => (.zbool (applyBooleanValidation zb v), [])
    | s => (s, [])
  else (schema, [])

/-- `buildFieldSchema` from `fieldSchemas.ts`: base schema for the field
type, then validation rules when a `validation` config is present.  The
second component collects the `console.warn` messages emitted on the way. -/
def buildFieldSchema (o : JsOracle) (field : Field) : ZodSchema × List String :=
  let schema := buildBaseSchema field.type
  match field.validation with
  | some v => applyValidationRules o schema v field.type
  | none => (schema, [])

/-- `isFieldOptional` from `fieldSchemas.ts`. -/
def isFieldOptional (field : Field) : Bool :=
  match field.validation with
  | some v => !v.required
  | none => true

/-! ## The dot-path nested-shape compiler (`nestedPaths.ts`)

The implementation file is not under src/ (only its unit tests and callers
are), so the compiler is modelled from the spec. -/

/-- A position in the nested schema shape: either a leaf validator or a
nested mapping of segment to further positions.  Intermediate mappings are
the "open" (passthrough) object levels. -/
inductive SchemaNode where
  | leaf (v : ZodSchema)
  | node (children : List (String × SchemaNode))
  deriving Repr

/-- Lookup of a segment key in one level of the shape. -/
def lookupS (k : String) : List (String × SchemaNode) → Option SchemaNode
  | [] => none
  | (k', n) :: rest => if k' = k then some n else lookupS k rest

/-- Assign a key at one level of the shape: replace an existing entry in
place, otherwise append. -/
def setEntry (k : String) (n : SchemaNode) :
    List (String × SchemaNode) → List (String × SchemaNode)
  | [] => [(k, n)]
  | (k', n') :: rest =>
      if k' = k then (k, n) :: rest else (k', n') :: setEntry k n rest

/-- Modelled from the spec: the recursive core of `setNestedSchema`
(`nestedPaths.ts`, not under src/).  Walks/creates mapping levels for every
segment except the last, then assigns the leaf validator at the final
segment.  Finding a leaf validator where it must descend further — and, per
§7's fail-fast reading, any occupied final segment — is a configuration
error surfaced as the full offending path (`full` is the whole path being
installed, carried for error reporting). -/
def setInShape (full : List String) :
    List String → List (String × SchemaNode) → ZodSchema →
    Except (List String) (List (String × SchemaNode))
  | [], _, _ => .error full
  | [k], cs, v =>
      match lookupS k cs with
      | none => .ok (setEntry k (.leaf v) cs)
      | some _ => .error full
  | k :: k2 :: rest, cs, v =>
      match lookupS k cs with
      | none =>
          match setInShape full (k2 :: rest) [] v with
          | .ok sub => .ok (setEntry k (.node sub) cs)
          | .error e => .error e
      | some (.node sub) =>
          match setInShape full (k2 :: rest) sub v with
          | .ok sub' => .ok (setEntry k (.node sub') cs)
          | .error e => .error e
      | some (.leaf _) => .error full

/-- Modelled from the spec: the recursive core of `getNestedSchema`
(`nestedPaths.ts`, not under src/): the same traversal read-only, returning
`none` on any missing segment (or when a leaf blocks further descent). -/
def getInShape : List String → List (String × SchemaNode) → Option SchemaNode
  | [], _ => none
  | [k], cs => lookupS k cs
  | k :: k2 :: rest, cs =>
      match lookupS k cs with
      | some (.node sub) => getInShape (k2 :: rest) sub
      | _ => none

/-- Character-level worker of the dot-splitting: `acc` holds the current
segment's characters in reverse. -/
def splitChars : List Char → List Char → List (List Char)
  | [], acc => [acc.reverse]
  | c :: rest, acc =>
      if c = '.' then acc.reverse :: splitChars rest []
      else splitChars rest (c :: acc)

/-- Dot-splitting of a path string, as JavaScript `path.split('.')` does
(never empty: splitting `""` yields `[""]`). -/
def splitPath (path : String) : List String :=
  (splitChars path.data []).map (fun cs => String.mk cs)

/-- Modelled from the spec: `setNestedSchema(shape, path, validator)` from
`nestedPaths.ts` (not under src/), at the dotted-string interface. -/
def setNestedSchema (shape : List (String × SchemaNode)) (path : String)
    (validator : ZodSchema) : Except (List String) (List (String × SchemaNode)) :=
  setInShape (splitPath path) (splitPath path) shape validator

/-- Modelled from the spec: `getNestedSchema(shape, path)` from
`nestedPaths.ts` (not under src/). -/
def getNestedSchema (shape : List (String × SchemaNode)) (path : String) :
    Option SchemaNode :=
  getInShape (splitPath path) shape

/-! ### Parse semantics of a nested shape

Intermediate levels are zod `.passthrough()` objects: every tracked key must
be present and pass its child schema, unknown sibling keys are accepted and
kept.  None of the validators produced here transforms its input, so a
successful parse returns the input value unchanged. -/

mutual

/-- Whether a value is accepted at a shape position. -/
def acceptsNode (o : JsOracle) : SchemaNode → JValue → Bool
  | .leaf v, j => zodAccepts o v j
  | .node cs, .jobj fs => acceptsFields o cs fs
  | .node _, _ => false

/-- Whether an object's fields satisfy one open object level: every tracked
key must be present in the data and accepted by its child schema.  Keys of
the data that are not tracked are not constrained (passthrough). -/
def acceptsFields (o : JsOracle) :
    List (String × SchemaNode) → List (String × JValue) → Bool
  | [], _ => true
  | (k, c) :: rest, fs =>
      (match lookupJ k fs with
       | some val => acceptsNode o c val
       | none => false) && acceptsFields o rest fs

end

/-- Parse a value against a shape position: success returns the (unchanged,
extra keys passed through) data. -/
def parseNode (o : JsOracle) (s : SchemaNode) (j : JValue) : Option JValue :=
  if acceptsNode o s j then some j else none

/-! ## Element-tree flattening and `generateSchema.ts` -/

mutual

/-- Modelled from the spec: `flattenFields` (`utils`, not under src/) —
depth-first traversal emitting every field element in document order,
descending through both `columns` and `children`. -/
def flattenFields : List FormElement → List Field
  | [] => []
  | e :: rest => flattenElement e ++ flattenFields rest

/-- One step of the flattening traversal. -/
def flattenElement : FormElement → List Field
  | .field f => [f]
  | .container _ cols children => flattenFields cols ++ flattenFields children
  | .column _ _ els => flattenFields els

end

/-- `generateZodSchema` from `generateSchema.ts` (code under src/): flatten
the element tree, build each field's schema and install it into the nested
shape via `setNestedSchema`; a configuration error from the path compiler
fails the whole synthesis.  Warnings from field-schema construction are
dropped here (the source only logs them). -/
def generateZodSchema (o : JsOracle) (elements : List FormElement) :
    Except (List String) (List (String × SchemaNode)) :=
  (flattenFields elements).foldlM
    (fun shape field => setNestedSchema shape field.name (buildFieldSchema o field).1)
    []

/-! ## The JSON-Logic rule evaluator

Modelled from the spec (§4.4): the implementation (`applyJsonLogic`,
`validation`, not under src/) interprets the fixed operator set against the
current form-data object; unknown operators, malformed arities and missing
`var` paths yield `undefined`. -/

/-- JavaScript `String()` coercion, used by `regex_match` on its operands. -/
def jsToString : JValue → String
  | .jundefined => "undefined"
  | .jnull => "null"
  | .jbool b => if b then "true" else "false"
  | .jnum n => toString n
  | .jstr s => s
  | .jobj _ => "[object Object]"

/-- Dot-segment traversal into the context object; any missing segment or
non-object intermediate yields `undefined`. -/
def lookupPath : JValue → List String → JValue
  | ctx, [] => ctx
  | .jobj fs, seg :: rest =>
      match lookupJ seg fs with
      | some v => lookupPath v rest
      | none => .jundefined
  | _, _ :: _ => .jundefined

/-- Structural equality of rule values (`==` on evaluated operands); values
of mismatched shapes compare unequal. -/
def jEq (a b : JValue) : Bool := a == b

/-- Ordering comparison on evaluated operands: numbers compare numerically,
strings lexicographically, any type mismatch compares as false. -/
def jLt (a b : JValue) : Bool :=
  match a, b with
  | .jnum x, .jnum y => x < y
  | .jstr x, .jstr y => x < y
  | _, _ => false

/-- Non-strict ordering, with the same mismatch-is-false behaviour. -/
def jLe (a b : JValue) : Bool :=
  match a, b with
  | .jnum x, .jnum y => x ≤ y
  | .jstr x, .jstr y => x ≤ y
  | _, _ => false

mutual

/-- Modelled from the spec: `applyJsonLogic(rule, context)` — the rule
evaluator (§4.4, implementation not under src/).  Total by construction;
unknown operators, wrong arities and missing `var` paths evaluate to
`undefined` rather than raising. -/
def applyJsonLogic (o : JsOracle) (ctx : JValue) : Rule → JValue
  | .lit v => v
  | .node op args =>
      if op = "var" then
        match args with
        | [a] =>
            match applyJsonLogic o ctx a with
            | .jstr path => lookupPath ctx (splitPath path)
            | _ => .jundefined
        | _ => .jundefined
      else if op = "and" then .jbool (evalAll o ctx args)
      else if op = "or" then .jbool (evalAny o ctx args)
      else if op = "!" then
        match args with
        | [a] => .jbool (!truthy (applyJsonLogic o ctx a))
        | _ => .jundefined
      else if op = "==" then
        match args with
        | [a, b] => .jbool (jEq (applyJsonLogic o ctx a) (applyJsonLogic o ctx b))
        | _ => .jundefined
      else if op = "!=" then
        match args with
        | [a, b] => .jbool (!jEq (applyJsonLogic o ctx a) (applyJsonLogic o ctx b))
        | _ => .jundefined
      else if op = ">" then
        match args with
        | [a, b] => .jbool (jLt (applyJsonLogic o ctx b) (applyJsonLogic o ctx a))
        | _ => .jundefined
      else if op = "<" then
        match args with
        | [a, b] => .jbool (jLt (applyJsonLogic o ctx a) (applyJsonLogic o ctx b))
        | _ => .jundefined
      else if op = ">=" then
        match args with
        | [a, b] => .jbool (jLe (applyJsonLogic o ctx b) (applyJsonLogic o ctx a))
        | _ => .jundefined
      else if op = "<=" then
        match args with
        | [a, b] => .jbool (jLe (applyJsonLogic o ctx a) (applyJsonLogic o ctx b))
        | _ => .jundefined
      else if op = "if" then
        match args with
        | [c, t, e] =>
            if truthy (applyJsonLogic o ctx c) then applyJsonLogic o ctx t
            else applyJsonLogic o ctx e
        | _ => .jundefined
      else if op = "regex_match" then
        match args with
        | [p, v] =>
            let pat := jsToString (applyJsonLogic o ctx p)
            if o.regexValid pat then
              .jbool (o.regexTest pat (jsToString (applyJsonLogic o ctx v)))
            else .jbool false
        | _ => .jundefined
      else .jundefined

/-- Short-circuit conjunction of a rule list under truthiness. -/
def evalAll (o : JsOracle) (ctx : JValue) : List Rule → Bool
  | [] => true
  | a :: rest => truthy (applyJsonLogic o ctx a) && evalAll o ctx rest

/-- Short-circuit disjunction of a rule list under truthiness. -/
def evalAny (o : JsOracle) (ctx : JValue) : List Rule → Bool
  | [] => false
  | a :: rest => truthy (applyJsonLogic o ctx a) || evalAny o ctx rest

end

/-! ## The visibility engine

Modelled from the spec (§4.5): the implementation (`calculateVisibility`,
`utils`, not under src/). -/

/-- Whether an element's optional `visible` rule holds: no rule means
visible, a rule means its evaluation must be truthy. -/
def visOk (o : JsOracle) (values : JValue) : Option Rule → Bool
  | none => true
  | some r => truthy (applyJsonLogic o values r)

mutual

/-- Tree walk of the visibility computation: `ambient` is the conjunction of
every ancestor container's/column's rule; a falsy ancestor forces every
descendant field to `false`. -/
def visitVisibility (o : JsOracle) (values : JValue) (ambient : Bool) :
    List FormElement → List (String × Bool)
  | [] => []
  | e :: rest =>
      visitVisibilityElement o values ambient e ++ visitVisibility o values ambient rest

/-- One element of the visibility walk. -/
def visitVisibilityElement (o : JsOracle) (values : JValue) (ambient : Bool) :
    FormElement → List (String × Bool)
  | .field f => [(f.name, ambient && visOk o values f.visible)]
  | .container vis cols children =>
      let ok := ambient && visOk o values vis
      visitVisibility o values ok cols ++ visitVisibility o values ok children
  | .column _ vis els =>
      let ok := ambient && visOk o values vis
      visitVisibility o values ok els

end

/-- Modelled from the spec: `calculateVisibility(elements, values)` (§4.5,
implementation not under src/): one boolean entry per field, ANDed down the
ancestor chain. -/
def calculateVisibility (o : JsOracle) (elements : List FormElement)
    (values : JValue) : List (String × Bool) :=
  visitVisibility o values true elements

/-! ## Dependency graph and cascading reset -/

/-- Modelled from the spec: `buildDependencyMap(elements)` (§4.6,
implementation not under src/): the set of field paths declaring
`dependsOn = p`, in document order. -/
def buildDependencyMap (elements : List FormElement) (p : String) : List String :=
  (flattenFields elements).filterMap
    (fun f => if f.dependsOn = some p then some f.name else none)

/-- Modelled from the spec: `findFieldByName` (`utils`, not under src/):
first field element with the given name, in document order. -/
def findFieldByName (elements : List FormElement) (name : String) : Option Field :=
  (flattenFields elements).find? (fun f => f.name = name)

/-- Modelled from the spec: `getFieldDefault` (`utils`, not under src/): the
declared default, else `false` for booleans and the empty string for the
string-like types (§4.6). -/
def getFieldDefault (f : Field) : JValue :=
  match f.defaultValue with
  | some d => d
  | none => if f.type = "boolean" then .jbool false else .jstr ""

/-- Replace or insert a key's value in the previous-values record. -/
def upsertJ (k : String) (v : JValue) :
    List (String × JValue) → List (String × JValue)
  | [] => [(k, v)]
  | (k', v') :: rest =>
      if k' = k then (k, v) :: rest else (k', v') :: upsertJ k v rest

/-- The per-dependent body of `handleDependencyReset`'s loop: find the
dependent's field element and, unless it sets `resetOnParentChange: false`,
emit the `form.setValue(dep, getFieldDefault(field))` call. -/
def resetCallOf (elements : List FormElement) (dep : String) :
    Option (String × JValue) :=
  match findFieldByName elements dep with
  | some fld =>
      if fld.resetOnParentChange ≠ some false then
        some (dep, getFieldDefault fld)
      else none
  | none => none

/-- `handleDependencyReset` from `DynamicForm.tsx` (code under src/): look
up the dependents of the changed field; bail out when there are none or when
the field's value strictly equals the last observed value; otherwise record
the new value and emit one `form.setValue(dep, default)` call per dependent
whose element does not set `resetOnParentChange: false`.  Returns the
updated previous-values record and the ordered `setValue` calls. -/
def handleDependencyReset (elements : List FormElement) (fieldName : String)
    (formValues : List (String × JValue)) (prev : List (String × JValue)) :
    List (String × JValue) × List (String × JValue) :=
  let dependents := buildDependencyMap elements fieldName
  if dependents.isEmpty then (prev, [])
  else
    let currentValue := (lookupJ fieldName formValues).getD .jundefined
    let previousValue := (lookupJ fieldName prev).getD .jundefined
    if currentValue == previousValue then (prev, [])
    else
      let prev' := upsertJ fieldName currentValue prev
      let calls := dependents.filterMap (resetCallOf elements)
      (prev', calls)

/-- The observable effects of one `form.watch` tick, in order. -/
inductive Action where
  | recomputeVisibility (vis : List (String × Bool))
  | setValue (path : String) (value : JValue)
  | notifyChange (name : String)
  deriving Repr

/-- Whether an action is a dependency-driven `setValue` reset. -/
def Action.isSetValue : Action → Bool
  | .setValue _ _ => true
  | _ => false

/-- The `form.watch` subscription handler from `DynamicForm.tsx` (code under
src/): recompute visibility from the event's values, then (when the event
names a changed field) run the dependency resets, then fire the external
`onChange` notification.  Returns the ordered action trace and the updated
previous-values record. -/
def watchHandler (o : JsOracle) (elements : List FormElement)
    (values : List (String × JValue)) (name : Option String)
    (prev : List (String × JValue)) :
    List Action × List (String × JValue) :=
  let newVis := calculateVisibility o elements (.jobj values)
  match name with
  | none => ([.recomputeVisibility newVis], prev)
  | some n =>
      let (prev', calls) := handleDependencyReset elements n values prev
      (.recomputeVisibility newVis ::
         (calls.map (fun c => .setValue c.1 c.2) ++ [.notifyChange n]),
       prev')

/-! ## The visibility-aware resolver

Modelled from the spec (§4.7): `createVisibilityAwareResolver` (`resolver`,
implementation not under src/). -/

/-- The `invisibleFieldValidation` mode. -/
inductive Mode where
  | skip
  | validate
  | warn
  deriving Repr, DecidableEq

/-- The resolver's output: the values produced by the underlying validator,
the surviving errors keyed by field path, and diagnostic log lines. -/
structure ResolverResult where
  values : JValue
  errors : List (String × String)
  logs : List String

/-- A field path is currently marked invisible when the visibility map has
an explicit `false` entry for it. -/
def isInvisible (visibility : List (String × Bool)) (path : String) : Bool :=
  match lookupJBool visibility path with
  | some b => !b
  | none => false
where
  /-- First-match lookup in the visibility map. -/
  lookupJBool (m : List (String × Bool)) (k : String) : Option Bool :=
    match m with
    | [] => none
    | (k', b) :: rest => if k' = k then some b else lookupJBool rest k

/-- Modelled from the spec: the per-error filtering of the resolver (§4.7).
An error whose field's `ValidationConfig.condition` evaluates falsy is
dropped regardless of mode; otherwise an invisible field's error is dropped
under `skip`, kept under `validate`, and kept plus logged under `warn`;
visible fields' errors always pass through. -/
def resolveErrors (o : JsOracle) (mode : Mode)
    (visibility : List (String × Bool)) (conditionOf : String → Option Rule)
    (values : JValue) :
    List (String × String) → List (String × String) × List String
  | [] => ([], [])
  | (path, msg) :: rest =>
      let (errs, logs) := resolveErrors o mode visibility conditionOf values rest
      match conditionOf path with
      | some cond =>
          if truthy (applyJsonLogic o values cond) then
            keepStep mode visibility path msg errs logs
          else (errs, logs)
      | none => keepStep mode visibility path msg errs logs
where
  /-- Visibility gating of one surviving-condition error. -/
  keepStep (mode : Mode) (visibility : List (String × Bool))
      (path msg : String) (errs : List (String × String)) (logs : List String) :
      List (String × String) × List String :=
    if isInvisible visibility path then
      match mode with
      | .skip => (errs, logs)
      | .validate => ((path, msg) :: errs, logs)
      | .warn =>
          ((path, msg) :: errs,
           s!"Invisible field {path} produced a validation error" :: logs)
    else ((path, msg) :: errs, logs)

/-- Modelled from the spec: `createVisibilityAwareResolver` (§4.7,
implementation not under src/): run the opaque underlying validator, then
filter its errors by condition and visibility according to the mode. -/
def createVisibilityAwareResolver
    (o : JsOracle) (validator : JValue → JValue × List (String × String))
    (getVisibility : List (String × Bool)) (mode : Mode)
    (conditionOf : String → Option Rule) (values : JValue) : ResolverResult :=
  let (outValues, allErrors) := validator values
  let (errs, logs) := resolveErrors o mode getVisibility conditionOf values allErrors
  { values := outValues, errors := errs, logs := logs }

/-- The path-level schema-installation loop: install each (path, validator)
pair in turn with the nested-shape compiler, propagating the first
configuration error.  This is the loop `generateZodSchema` runs, stated at
the segment-list level. -/
def setAll : List (List String × ZodSchema) → List (String × SchemaNode) →
    Except (List String) (List (String × SchemaNode))
  | [], cs => .ok cs
  | (p, v) :: rest, cs =>
      match setInShape p p cs v with
      | .ok cs' => setAll rest cs'
      | .error e => .error e

/-- The same installation loop at the dotted-string interface: one
`setNestedSchema` call per (path, validator) pair. -/
def setAllNamed : List (String × ZodSchema) → List (String × SchemaNode) →
    Except (List String) (List (String × SchemaNode))
  | [], cs => .ok cs
  | (name, v) :: rest, cs =>
      match setNestedSchema cs name v with
      | .ok cs' => setAllNamed rest cs'
      | .error e => .error e

/-! ## Notions used by the theorem statements -/

/-- `segLead p q` holds when the segment list `p` is an initial segment of
`q` (so `p` addresses a position on the way to `q`). -/
def segLead : List String → List String → Bool
  | [], _ => true
  | _ :: _, [] => false
  | a :: as, b :: bs => a == b && segLead as bs

/-- A family of paths is admissible for schema synthesis when no member is
an initial segment of another (in particular all members are distinct) —
the spec's §3 invariant that no name is simultaneously a leaf and a parent. -/
def okPaths : List (List String) → Bool
  | [] => true
  | p :: rest =>
      rest.all (fun q => !segLead p q && !segLead q p) && okPaths rest

/-- `FieldUnder els anc f`: the field element `f` occurs in the element
forest `els`, and `anc` lists the `visible` rules of the containers and
columns on the path from the roots down to `f` (outermost first). -/
inductive FieldUnder : List FormElement → List (Option Rule) → Field → Prop where
  | here (f : Field) (rest : List FormElement) :
      FieldUnder (.field f :: rest) [] f
  | there (e : FormElement) (rest : List FormElement) (anc : List (Option Rule))
      (f : Field) : FieldUnder rest anc f → FieldUnder (e :: rest) anc f
  | inColumns (vis : Option Rule) (cols children rest : List FormElement)
      (anc : List (Option Rule)) (f : Field) :
      FieldUnder cols anc f →
      FieldUnder (.container vis cols children :: rest) (vis :: anc) f
  | inChildren (vis : Option Rule) (cols children rest : List FormElement)
      (anc : List (Option Rule)) (f : Field) :
      FieldUnder children anc f →
      FieldUnder (.container vis cols children :: rest) (vis :: anc) f
  | inColumn (w : String) (vis : Option Rule) (els rest : List FormElement)
      (anc : List (Option Rule)) (f : Field) :
      FieldUnder els anc f →
      FieldUnder (.column w vis els :: rest) (vis :: anc) f

/-- A concrete validation config with an unparsable pattern, used to
instantiate the pattern-tolerance theorem. -/
def badPatternConfig : ValidationConfig :=
  { required := true
    minLength := some 3
    maxLength := some 5
    pattern := some "(" }

/-- A concrete text field carrying `badPatternConfig`. -/
def badPatternField : Field :=
  { type := "text", name := "code", validation := some badPatternConfig }

/-- A concrete field with its own `visible` rule evaluating true, used to
instantiate the visibility-gating theorem. -/
def gatedField : Field :=
  { type := "text", name := "inner", visible := some (.lit (.jbool true)) }

/-- A concrete element tree: a container whose `visible` rule is the literal
`false`, holding one column holding `gatedField`. -/
def gatedElements : List FormElement :=
  [.container (some (.lit (.jbool false)))
    [.column "50%" none [.field gatedField]] []]

/-- The dependent field of the cascading-reset witness: depends on `"A"`
with declared default `"b0"`. -/
def resetFieldB : Field :=
  { type := "text", name := "B", defaultValue := some (.jstr "b0"),
    dependsOn := some "A" }

/-- The opted-out dependent of the cascading-reset witness:
`resetOnParentChange: false`. -/
def resetFieldC : Field :=
  { type := "text", name := "C", dependsOn := some "A",
    resetOnParentChange := some false }

/-- A concrete element list for the cascading-reset witness: parent `"A"`
and two dependents. -/
def resetElements : List FormElement :=
  [.field { type := "text", name := "A" },
   .field resetFieldB,
   .field resetFieldC]

/-- The first field of the collision witness: a leaf assigned at `"a.b"`. -/
def collisionField1 : Field := { type := "text", name := "a.b" }

/-- The second field of the collision witness: tries to descend through the
leaf at `"a.b"`. -/
def collisionField2 : Field := { type := "text", name := "a.b.c" }

/-- Concrete dotted-path/validator entries for the round-trip witness. -/
def roundtripEntries : List (String × ZodSchema) :=
  [("source.name", .zstr ⟨[]⟩),
   ("source.email", .zstr ⟨[.email "Invalid email address"]⟩),
   ("active", .zbool ⟨false⟩)]

/-! # Theorems -/

/-- Claim C3: for every boolean-typed field, the generated validator rejects
`false` and accepts `true` when `validation.required` is true, and accepts
both `true` and `false` when `required` is absent (either no validation
config or a non-required one). -/
theorem boolean_required_semantics (o : JsOracle) (f : Field)
    (htype : f.type = "boolean") :
    (∀ v : ValidationConfig, f.validation = some v → v.required = true →
        zodAccepts o (buildFieldSchema o f).1 (.jbool false) = false ∧
        zodAccepts o (buildFieldSchema o f).1 (.jbool true) = true) ∧
    (∀ v : ValidationConfig, f.validation = some v → v.required = false →
        zodAccepts o (buildFieldSchema o f).1 (.jbool false) = true ∧
        zodAccepts o (buildFieldSchema o f).1 (.jbool true) = true) ∧
    (f.validation = none →
        zodAccepts o (buildFieldSchema o f).1 (.jbool false) = true ∧
        zodAccepts o (buildFieldSchema o f).1 (.jbool true) = true) := by
  refine ⟨?_, ?_, ?_⟩
  · intro v hval hreq
    simp [buildFieldSchema, hval, htype, applyValidationRules,
      applyBooleanValidation, hreq, buildBaseSchema, zodAccepts]
  · intro v hval hreq
    simp [buildFieldSchema, hval, htype, applyValidationRules,
      applyBooleanValidation, hreq, buildBaseSchema, zodAccepts]
  · intro hval
    simp [buildFieldSchema, hval, htype, buildBaseSchema, zodAccepts]

/-- Witness for C3 at a concrete required boolean field and a concrete
optional one. -/
theorem boolean_required_semantics_witness :
    (zodAccepts noOracle
        (buildFieldSchema noOracle
          { type := "boolean", name := "acceptTerms",
            validation := some { required := true } }).1 (.jbool false) = false ∧
      zodAccepts noOracle
        (buildFieldSchema noOracle
          { type := "boolean", name := "acceptTerms",
            validation := some { required := true } }).1 (.jbool true) = true) ∧
    (zodAccepts noOracle
        (buildFieldSchema noOracle
          { type := "boolean", name := "active" }).1 (.jbool false) = true ∧
      zodAccepts noOracle
        (buildFieldSchema noOracle
          { type := "boolean", name := "active" }).1 (.jbool true) = true) :=
  ⟨(boolean_required_semantics noOracle
      { type := "boolean", name := "acceptTerms",
        validation := some { required := true } } rfl).1 _ rfl rfl,
   (boolean_required_semantics noOracle
      { type := "boolean", name := "active" } rfl).2.2 rfl⟩

/-- Claim C4: a string-typed field whose `validation.pattern` does not
compile as a regular expression still yields a schema — the very schema the
same configuration without the pattern yields, so `required`, `minLength`
and `maxLength` are applied unchanged and no pattern check is enforced —
and the construction emits exactly the invalid-pattern warning.  (Schema
construction is total here, as in the source: an invalid pattern never
fails synthesis.) -/
theorem invalid_pattern_degrades (o : JsOracle) (f : Field)
    (v : ValidationConfig) (p : String)
    (htype : f.type = "text" ∨ f.type = "phone" ∨ f.type = "email" ∨
      f.type = "date")
    (hval : f.validation = some v) (hpat : v.pattern = some p)
    (hne : p ≠ "") (hinv : o.regexValid p = false) :
    (buildFieldSchema o f).1 =
      (buildFieldSchema o
        { f with validation := some { v with pattern := none } }).1 ∧
    (buildFieldSchema o f).2 = [s!"Invalid regex pattern: {p}"] := by
  have hstr : ∃ zs, buildBaseSchema f.type = .zstr zs := by
    rcases htype with h | h | h | h <;> rw [h] <;>
      exact ⟨_, rfl⟩
  rcases hstr with ⟨zs, hzs⟩
  have hdisp : f.type = "text" ∨ f.type = "phone" ∨ f.type = "email" ∨
      f.type = "date" := htype
  constructor <;>
    simp [buildFieldSchema, hval, applyValidationRules, hdisp, hzs,
      applyStringValidation, hpat, hne, hinv]

/-- Witness for C4: a text field with min/max bounds and an unparsable
pattern, under an oracle rejecting the pattern. -/
theorem invalid_pattern_degrades_witness :
    (buildFieldSchema noOracle badPatternField).1 =
      (buildFieldSchema noOracle
        { badPatternField with
            validation := some { badPatternConfig with pattern := none } }).1 ∧
    (buildFieldSchema noOracle badPatternField).2 =
      ["Invalid regex pattern: ("] :=
  invalid_pattern_degrades noOracle badPatternField badPatternConfig "("
    (Or.inl rfl) rfl rfl (by decide) rfl

/-- Claim C9: the rule evaluator is total by construction (it is a plain
function into `JValue`), and every degenerate input degrades to `undefined`
rather than failing: unknown operators, wrong arity for `var` and `if`, and
a `var` referencing a path absent from the context all evaluate to
`undefined`, and `undefined` is treated as falsy by the enclosing boolean
operators. -/
theorem rule_evaluator_degrades_to_undefined (o : JsOracle) (ctx : JValue) :
    (∀ op args,
        op ∉ (["var", "and", "or", "!", "==", "!=", ">", "<", ">=", "<=",
          "if", "regex_match"] : List String) →
        applyJsonLogic o ctx (.node op args) = .jundefined) ∧
    (∀ args, args.length ≠ 1 →
        applyJsonLogic o ctx (.node "var" args) = .jundefined) ∧
    (∀ args, args.length ≠ 3 →
        applyJsonLogic o ctx (.node "if" args) = .jundefined) ∧
    (∀ fs s, lookupJ s fs = none → splitPath s = [s] →
        applyJsonLogic o (.jobj fs) (.node "var" [.lit (.jstr s)]) = .jundefined) ∧
    (truthy .jundefined = false) ∧
    (∀ r, applyJsonLogic o ctx r = .jundefined →
        applyJsonLogic o ctx (.node "!" [r]) = .jbool true ∧
        applyJsonLogic o ctx (.node "and" [r]) = .jbool false ∧
        applyJsonLogic o ctx (.node "or" [r]) = .jbool false) := by
  refine ⟨?_, ?_, ?_, ?_, rfl, ?_⟩
  · intro op args hop
    simp only [List.mem_cons, List.not_mem_nil, or_false, not_or] at hop
    obtain ⟨h1, h2, h3, h4, h5, h6, h7, h8, h9, h10, h11, h12⟩ := hop
    unfold applyJsonLogic
    simp [h1, h2, h3, h4, h5, h6, h7, h8, h9, h10, h11, h12]
  · intro args hlen
    rcases args with _ | ⟨a, _ | ⟨b, rest⟩⟩
    · unfold applyJsonLogic
      simp
    · simp at hlen
    · unfold applyJsonLogic
      simp
  · intro args hlen
    rcases args with _ | ⟨a, _ | ⟨b, _ | ⟨c, _ | ⟨d, rest⟩⟩⟩⟩ <;>
      simp_all [applyJsonLogic]
  · intro fs s hmiss hsplit
    simp [applyJsonLogic, hsplit, lookupPath, hmiss]
  · intro r hr
    refine ⟨?_, ?_, ?_⟩ <;>
      simp [applyJsonLogic, evalAll, evalAny, hr, truthy]

/-- Witness for C9 at concrete degenerate rules: an unknown operator, a
two-argument `var`, a one-argument `if`, a `var` naming an absent key, and
negation of an undefined-valued subrule. -/
theorem rule_evaluator_degrades_witness :
    applyJsonLogic noOracle .jnull (.node "frobnicate" []) = .jundefined ∧
    applyJsonLogic noOracle .jnull
      (.node "var" [.lit (.jstr "a"), .lit .jnull]) = .jundefined ∧
    applyJsonLogic noOracle .jnull (.node "if" [.lit (.jbool true)]) = .jundefined ∧
    applyJsonLogic noOracle (.jobj [("b", .jnum 1)])
      (.node "var" [.lit (.jstr "a")]) = .jundefined ∧
    applyJsonLogic noOracle .jnull (.node "!" [.lit .jundefined]) = .jbool true :=
  ⟨(rule_evaluator_degrades_to_undefined noOracle .jnull).1 "frobnicate" []
      (by decide),
   (rule_evaluator_degrades_to_undefined noOracle .jnull).2.1
      [.lit (.jstr "a"), .lit .jnull] (by decide),
   (rule_evaluator_degrades_to_undefined noOracle .jnull).2.2.1
      [.lit (.jbool true)] (by decide),
   (rule_evaluator_degrades_to_undefined noOracle
      (.jobj [("b", .jnum 1)])).2.2.2.1 [("b", .jnum 1)] "a"
      (by simp [lookupJ]) (by decide),
   ((rule_evaluator_degrades_to_undefined noOracle .jnull).2.2.2.2.2
      (.lit .jundefined) rfl).1⟩

/-! ## Visibility gating (C5) -/

/-- Unfolding: visibility walk of the empty forest. -/
theorem visitVisibility_nil (o : JsOracle) (values : JValue) (b : Bool) :
    visitVisibility o values b [] = [] := rfl

/-- Unfolding: visibility walk of a non-empty forest. -/
theorem visitVisibility_cons (o : JsOracle) (values : JValue) (b : Bool)
    (e : FormElement) (rest : List FormElement) :
    visitVisibility o values b (e :: rest) =
      visitVisibilityElement o values b e ++ visitVisibility o values b rest := rfl

/-- Unfolding: visibility of a field element under an ambient flag. -/
theorem visitVisibilityElement_field (o : JsOracle) (values : JValue) (b : Bool)
    (f : Field) :
    visitVisibilityElement o values b (.field f) =
      [(f.name, b && visOk o values f.visible)] := rfl

/-- Unfolding: visibility walk under a container ANDs the container's rule
into the ambient flag for both branches. -/
theorem visitVisibilityElement_container (o : JsOracle) (values : JValue)
    (b : Bool) (vis : Option Rule) (cols children : List FormElement) :
    visitVisibilityElement o values b (.container vis cols children) =
      visitVisibility o values (b && visOk o values vis) cols ++
        visitVisibility o values (b && visOk o values vis) children := rfl

/-- Unfolding: visibility walk under a column ANDs the column's rule into
the ambient flag. -/
theorem visitVisibilityElement_column (o : JsOracle) (values : JValue)
    (b : Bool) (w : String) (vis : Option Rule) (els : List FormElement) :
    visitVisibilityElement o values b (.column w vis els) =
      visitVisibility o values (b && visOk o values vis) els := rfl

/-- Core of C5: a field sitting under ancestor rules `anc` contributes the
entry `ambient && all-ancestors && own-rule` to the visibility walk. -/
theorem fieldUnder_mem_visit (o : JsOracle) (values : JValue)
    {els : List FormElement} {anc : List (Option Rule)} {f : Field}
    (h : FieldUnder els anc f) :
    ∀ b : Bool,
      (f.name, b && anc.all (visOk o values) && visOk o values f.visible) ∈
        visitVisibility o values b els := by
  induction h with
  | here f rest =>
      intro b
      simp [visitVisibility_cons, visitVisibilityElement_field]
  | there e rest anc f _ ih =>
      intro b
      rw [visitVisibility_cons]
      exact List.mem_append_right _ (ih b)
  | inColumns vis cols children rest anc f _ ih =>
      intro b
      rw [visitVisibility_cons, visitVisibilityElement_container,
        List.all_cons, ← Bool.and_assoc]
      exact List.mem_append_left _ (List.mem_append_left _
        (ih (b && visOk o values vis)))
  | inChildren vis cols children rest anc f _ ih =>
      intro b
      rw [visitVisibility_cons, visitVisibilityElement_container,
        List.all_cons, ← Bool.and_assoc]
      exact List.mem_append_left _ (List.mem_append_right _
        (ih (b && visOk o values vis)))
  | inColumn w vis els rest anc f _ ih =>
      intro b
      rw [visitVisibility_cons, visitVisibilityElement_column,
        List.all_cons, ← Bool.and_assoc]
      exact List.mem_append_left _ (ih (b && visOk o values vis))

/-- Claim C5: `calculateVisibility` computes, for every field in the tree,
exactly the conjunction of all ancestor containers'/columns' `visible`
rules with the field's own rule — so a field is marked `true` exactly when
its own rule and every ancestor's rule evaluate truthy, and any falsy
ancestor rule forces the field to `false` regardless of its own rule. -/
theorem visibility_ancestor_gating (o : JsOracle) (values : JValue)
    {elements : List FormElement} {anc : List (Option Rule)} {f : Field}
    (h : FieldUnder elements anc f) :
    (f.name, anc.all (visOk o values) && visOk o values f.visible) ∈
      calculateVisibility o elements values := by
  have := fieldUnder_mem_visit o values h true
  simpa [calculateVisibility] using this

/-- Witness for C5: in `gatedElements` the container's rule is the literal
`false` and the field's own rule the literal `true`; the field is computed
invisible. -/
theorem visibility_ancestor_gating_witness :
    ("inner", false) ∈
      calculateVisibility noOracle gatedElements (.jobj []) := by
  have hu : FieldUnder gatedElements
      [some (.lit (.jbool false)), none] gatedField :=
    .inColumns _ _ _ _ _ _ (.inColumn _ _ _ _ _ _ (.here _ _))
  simpa [gatedField, visOk] using
    visibility_ancestor_gating noOracle (.jobj []) hu

/-! ## Cascading dependency resets (C6) and event ordering (C8) -/

/-- `handleDependencyReset` unfolded on the differing-value branch. -/
theorem handleDependencyReset_changed (elements : List FormElement)
    (P : String) (formValues prev : List (String × JValue))
    (hne : buildDependencyMap elements P ≠ [])
    (hch : ((lookupJ P formValues).getD .jundefined ==
      (lookupJ P prev).getD .jundefined) = false) :
    (handleDependencyReset elements P formValues prev).2 =
      (buildDependencyMap elements P).filterMap (resetCallOf elements) := by
  have hempty : (buildDependencyMap elements P).isEmpty = false := by
    simpa [List.isEmpty_iff] using hne
  simp [handleDependencyReset, hempty, hch]

/-- `handleDependencyReset` emits no calls when the observed value did not
change. -/
theorem handleDependencyReset_unchanged (elements : List FormElement)
    (P : String) (formValues prev : List (String × JValue))
    (hch : ((lookupJ P formValues).getD .jundefined ==
      (lookupJ P prev).getD .jundefined) = true) :
    (handleDependencyReset elements P formValues prev).2 = [] := by
  by_cases hempty : (buildDependencyMap elements P).isEmpty <;>
    simp [handleDependencyReset, hempty, hch]

/-- Every dependency-map entry is a field name, so the map is a sublist of
the flattened field names. -/
theorem buildDependencyMap_sublist (elements : List FormElement) (P : String) :
    (buildDependencyMap elements P).Sublist
      ((flattenFields elements).map (fun f => f.name)) := by
  unfold buildDependencyMap
  induction flattenFields elements with
  | nil => simp
  | cons f rest ih =>
      by_cases h : f.dependsOn = some P
      · simpa [List.filterMap_cons, h] using ih
      · simp [List.filterMap_cons, h]
        exact ih.cons f.name

/-- Reset calls produced from dependents not equal to `D` never carry the
key `D`. -/
theorem resetCalls_filter_not_mem (elements : List FormElement) (D : String) :
    ∀ l : List String, D ∉ l →
      (l.filterMap (resetCallOf elements)).filter (fun c => c.1 == D) = [] := by
  intro l
  induction l with
  | nil => intro _; simp
  | cons d rest ih =>
      intro hmem
      have hd : d ≠ D := fun h => hmem (h ▸ List.mem_cons_self d rest)
      have hrest := ih (fun h => hmem (List.mem_cons_of_mem d h))
      rcases hcall : resetCallOf elements d with _ | c
      · simp [List.filterMap_cons, hcall, hrest]
      · have hc1 : c.1 = d := by
          unfold resetCallOf at hcall
          rcases hfind : findFieldByName elements d with _ | fld <;>
            rw [hfind] at hcall
          · simp at hcall
          · by_cases hr : fld.resetOnParentChange ≠ some false <;>
              simp [hr] at hcall
            exact congrArg Prod.fst hcall.symm
        simp [List.filterMap_cons, hcall, List.filter_cons, hc1, hd,
          Ne.symm hd, hrest]

/-- When `D` occurs exactly once among the dependents and its field does not
opt out, the reset calls contain exactly one entry for `D`: its default
assignment. -/
theorem resetCalls_filter_once (elements : List FormElement) (D : String)
    (fld : Field) (hfind : findFieldByName elements D = some fld)
    (hr : fld.resetOnParentChange ≠ some false) :
    ∀ l : List String, l.count D = 1 →
      (l.filterMap (resetCallOf elements)).filter (fun c => c.1 == D) =
        [(D, getFieldDefault fld)] := by
  intro l
  induction l with
  | nil => intro h; simp at h
  | cons d rest ih =>
      intro hcount
      by_cases hd : d = D
      · subst hd
        have hrest0 : rest.count d = 0 := by
          have := hcount
          rw [List.count_cons_self] at this
          omega
        have hnotmem : d ∉ rest := by
          simpa using List.count_eq_zero.mp hrest0
        have hcall : resetCallOf elements d = some (d, getFieldDefault fld) := by
          unfold resetCallOf
          rw [hfind]
          simp [hr]
        simp [List.filterMap_cons, hcall, List.filter_cons,
          resetCalls_filter_not_mem elements d rest hnotmem]
      · have hcount' : rest.count D = 1 := by
          rwa [List.count_cons_of_ne (Ne.symm hd)] at hcount
        rcases hcall : resetCallOf elements d with _ | c
        · simp [List.filterMap_cons, hcall, ih hcount']
        · have hc1 : c.1 = d := by
            unfold resetCallOf at hcall
            rcases hfind' : findFieldByName elements d with _ | fld' <;>
              rw [hfind'] at hcall
            · simp at hcall
            · by_cases hr' : fld'.resetOnParentChange ≠ some false <;>
                simp [hr'] at hcall
              exact congrArg Prod.fst hcall.symm
          simp [List.filterMap_cons, hcall, List.filter_cons, hc1, hd,
            Ne.symm hd, ih hcount']

/-- A dependent whose field sets `resetOnParentChange: false` never appears
among the reset calls. -/
theorem resetCalls_filter_optout (elements : List FormElement) (D : String)
    (fld : Field) (hfind : findFieldByName elements D = some fld)
    (hr : fld.resetOnParentChange = some false) :
    ∀ l : List String,
      (l.filterMap (resetCallOf elements)).filter (fun c => c.1 == D) = [] := by
  intro l
  induction l with
  | nil => simp
  | cons d rest ih =>
      by_cases hd : d = D
      · subst hd
        have hcall : resetCallOf elements d = none := by
          unfold resetCallOf
          rw [hfind]
          simp [hr]
        simpa [List.filterMap_cons, hcall] using ih
      · rcases hcall : resetCallOf elements d with _ | c
        · simpa [List.filterMap_cons, hcall] using ih
        · have hc1 : c.1 = d := by
            unfold resetCallOf at hcall
            rcases hfind' : findFieldByName elements d with _ | fld' <;>
              rw [hfind'] at hcall
            · simp at hcall
            · by_cases hr' : fld'.resetOnParentChange ≠ some false <;>
                simp [hr'] at hcall
              exact congrArg Prod.fst hcall.symm
          simpa [List.filterMap_cons, hcall, List.filter_cons, hc1, hd,
            Ne.symm hd] using ih

/-- Claim C6: on a value-change event for `P` whose value strictly differs
from the last observed one, every dependent `D` of `P` whose field does not
set `resetOnParentChange: false` is assigned its default value exactly once
(under the tree's unique-names invariant); a dependent that does set
`resetOnParentChange: false` is never reset; and no dependent at all is
reset when `P`'s value did not change. -/
theorem cascading_reset (elements : List FormElement) (P D : String)
    (formValues prev : List (String × JValue)) (fld : Field)
    (hdep : D ∈ buildDependencyMap elements P)
    (hfind : findFieldByName elements D = some fld) :
    (((lookupJ P formValues).getD .jundefined ==
        (lookupJ P prev).getD .jundefined) = false →
      (fld.resetOnParentChange ≠ some false →
        ((flattenFields elements).map (fun f => f.name)).Nodup →
        ((handleDependencyReset elements P formValues prev).2.filter
            (fun c => c.1 == D)) = [(D, getFieldDefault fld)]) ∧
      (fld.resetOnParentChange = some false →
        ((handleDependencyReset elements P formValues prev).2.filter
            (fun c => c.1 == D)) = [])) ∧
    (((lookupJ P formValues).getD .jundefined ==
        (lookupJ P prev).getD .jundefined) = true →
      (handleDependencyReset elements P formValues prev).2 = []) := by
  have hne : buildDependencyMap elements P ≠ [] := by
    intro h
    rw [h] at hdep
    exact absurd hdep (List.not_mem_nil D)
  constructor
  · intro hch
    constructor
    · intro hr hnodup
      rw [handleDependencyReset_changed elements P formValues prev hne hch]
      have hsub := buildDependencyMap_sublist elements P
      have hnodup' : (buildDependencyMap elements P).Nodup := hnodup.sublist hsub
      have hcount : (buildDependencyMap elements P).count D = 1 :=
        List.count_eq_one_of_mem hnodup' hdep
      exact resetCalls_filter_once elements D fld hfind hr _ hcount
    · intro hr
      rw [handleDependencyReset_changed elements P formValues prev hne hch]
      exact resetCalls_filter_optout elements D fld hfind hr _
  · exact handleDependencyReset_unchanged elements P formValues prev

/-- Witness for C6: changing `"A"` from unobserved to `"x"` resets `"B"` to
its declared default exactly once, never resets the opted-out `"C"`, and a
tick where `"A"`'s value equals the last observed one resets nothing. -/
theorem cascading_reset_witness :
    ((handleDependencyReset resetElements "A" [("A", .jstr "x")] []).2.filter
        (fun c => c.1 == "B")) = [("B", .jstr "b0")] ∧
    ((handleDependencyReset resetElements "A" [("A", .jstr "x")] []).2.filter
        (fun c => c.1 == "C")) = [] ∧
    (handleDependencyReset resetElements "A" [("A", .jstr "x")]
        [("A", .jstr "x")]).2 = [] :=
  ⟨((cascading_reset resetElements "A" "B" [("A", .jstr "x")] [] resetFieldB
      (by decide) rfl).1 rfl).1 (by decide) (by decide),
   ((cascading_reset resetElements "A" "C" [("A", .jstr "x")] [] resetFieldC
      (by decide) rfl).1 rfl).2 rfl,
   (cascading_reset resetElements "A" "B" [("A", .jstr "x")]
      [("A", .jstr "x")] resetFieldB (by decide) rfl).2 rfl⟩

/-- Claim C8: on a value-change event the watch handler's observable trace
is exactly: the visibility recomputation first — computed from the event's
values, i.e. not observing any reset issued in the same event — then the
dependency-driven `setValue` resets, then the external change
notification.  Stated both as the full trace shape and as its positional
consequences (head, last, and everything in between being resets). -/
theorem watch_event_ordering (o : JsOracle) (elements : List FormElement)
    (values prev : List (String × JValue)) (n : String) :
    (watchHandler o elements values (some n) prev).1 =
      .recomputeVisibility (calculateVisibility o elements (.jobj values)) ::
        ((handleDependencyReset elements n values prev).2.map
            (fun c => Action.setValue c.1 c.2) ++ [.notifyChange n]) ∧
    (watchHandler o elements values (some n) prev).1.head? =
      some (.recomputeVisibility (calculateVisibility o elements (.jobj values))) ∧
    (watchHandler o elements values (some n) prev).1.getLast? =
      some (.notifyChange n) ∧
    (((watchHandler o elements values (some n) prev).1.drop 1).dropLast.all
        Action.isSetValue) = true := by
  rcases hh : handleDependencyReset elements n values prev with ⟨prev', calls⟩
  have htrace : (watchHandler o elements values (some n) prev).1 =
      .recomputeVisibility (calculateVisibility o elements (.jobj values)) ::
        (calls.map (fun c => Action.setValue c.1 c.2) ++ [.notifyChange n]) := by
    simp [watchHandler, hh]
  refine ⟨by rw [htrace], ?_, ?_, ?_⟩
  · rw [htrace]
    rfl
  · rw [htrace, ← List.cons_append, List.getLast?_concat]
  · rw [htrace]
    simp only [List.drop_succ_cons, List.drop_zero, List.dropLast_concat]
    refine List.all_eq_true.mpr (fun a ha => ?_)
    rcases List.mem_map.mp ha with ⟨c, _, rfl⟩
    rfl

/-! ## The visibility-aware resolver (C7) -/

/-- Restricted to one condition-free field path `p`, the resolver's error
filtering drops everything exactly when `p` is invisible and the mode is
`skip`, and otherwise passes `p`'s errors through unchanged. -/
theorem resolveErrors_filter_path (o : JsOracle) (mode : Mode)
    (vis : List (String × Bool)) (conditionOf : String → Option Rule)
    (values : JValue) (p : String) (hcond : conditionOf p = none) :
    ∀ errs : List (String × String),
      (resolveErrors o mode vis conditionOf values errs).1.filter
          (fun e => e.1 == p) =
        if isInvisible vis p = true ∧ mode = .skip then []
        else errs.filter (fun e => e.1 == p) := by
  intro errs
  induction errs with
  | nil => simp [resolveErrors]
  | cons e rest ih =>
      rcases e with ⟨q, m⟩
      rcases hrec : resolveErrors o mode vis conditionOf values rest
        with ⟨errs', logs'⟩
      have ih' := ih
      rw [hrec] at ih'
      by_cases hq : q = p
      · subst hq
        rw [resolveErrors, hrec, hcond]
        unfold resolveErrors.keepStep
        by_cases hinv : isInvisible vis q = true
        · cases mode with
          | skip => simp [hinv, List.filter_cons, ih']
          | validate => simp [hinv, List.filter_cons, ih']
          | warn => simp [hinv, List.filter_cons, ih']
        · replace hinv : isInvisible vis q = false := by
            simpa using hinv
          cases mode <;> simp [hinv, List.filter_cons, ih']
      · have hqb : (q == p) = false := by
          simpa using hq
        rw [resolveErrors, hrec]
        rcases hc : conditionOf q with _ | cond
        · unfold resolveErrors.keepStep
          by_cases hinv : isInvisible vis q = true
          · cases mode <;> simp [hinv, List.filter_cons, hqb, ih']
          · replace hinv : isInvisible vis q = false := by
              simpa using hinv
            cases mode <;> simp [hinv, List.filter_cons, hqb, ih']
        · by_cases ht : truthy (applyJsonLogic o values cond) = true
          · unfold resolveErrors.keepStep
            by_cases hinv : isInvisible vis q = true
            · cases mode <;> simp [ht, hinv, List.filter_cons, hqb, ih']
            · replace hinv : isInvisible vis q = false := by
                simpa using hinv
              cases mode <;> simp [ht, hinv, List.filter_cons, hqb, ih']
          · replace ht : truthy (applyJsonLogic o values cond) = false := by
              simpa using ht
            simp [ht, List.filter_cons, hqb, ih']

/-- Under `warn` mode, an invisible condition-free field contributing an
error forces at least one diagnostic log line. -/
theorem resolveErrors_warn_logs (o : JsOracle) (vis : List (String × Bool))
    (conditionOf : String → Option Rule) (values : JValue) (p m : String)
    (hcond : conditionOf p = none) (hinv : isInvisible vis p = true) :
    ∀ errs : List (String × String), (p, m) ∈ errs →
      (resolveErrors o .warn vis conditionOf values errs).2 ≠ [] := by
  intro errs
  induction errs with
  | nil => intro h; exact absurd h (List.not_mem_nil _)
  | cons e rest ih =>
      intro hmem
      rcases e with ⟨q, m'⟩
      rcases hrec : resolveErrors o .warn vis conditionOf values rest
        with ⟨errs', logs'⟩
      have ih' := ih
      rw [hrec] at ih'
      rcases List.mem_cons.mp hmem with heq | hmem'
      · have hq : p = q := congrArg Prod.fst heq
        subst hq
        rw [resolveErrors, hrec, hcond]
        unfold resolveErrors.keepStep
        simp [hinv]
      · have hlogs' : logs' ≠ [] := ih' hmem'
        rw [resolveErrors, hrec]
        rcases hc : conditionOf q with _ | cond
        · unfold resolveErrors.keepStep
          by_cases hinvq : isInvisible vis q = true
          · simp [hinvq, hlogs']
          · replace hinvq : isInvisible vis q = false := by
              simpa using hinvq
            simp [hinvq, hlogs']
        · by_cases ht : truthy (applyJsonLogic o values cond) = true
          · unfold resolveErrors.keepStep
            by_cases hinvq : isInvisible vis q = true
            · simp [ht, hinvq, hlogs']
            · replace hinvq : isInvisible vis q = false := by
                simpa using hinvq
              simp [ht, hinvq, hlogs']
          · replace ht : truthy (applyJsonLogic o values cond) = false := by
              simpa using ht
            simp [ht, hlogs']

/-- Claim C7: for a condition-free field path `p` currently marked
invisible, the resolver drops `p`'s errors under mode `skip`, keeps them
unchanged under `validate`, and keeps them plus emits a diagnostic log
under `warn`; for a `p` not marked invisible, `p`'s errors pass through
unchanged in every mode. -/
theorem visibility_aware_resolver (o : JsOracle)
    (validator : JValue → JValue × List (String × String))
    (vis : List (String × Bool)) (conditionOf : String → Option Rule)
    (values : JValue) (p : String) (hcond : conditionOf p = none) :
    (isInvisible vis p = true →
      (createVisibilityAwareResolver o validator vis .skip conditionOf
          values).errors.filter (fun e => e.1 == p) = [] ∧
      (createVisibilityAwareResolver o validator vis .validate conditionOf
          values).errors.filter (fun e => e.1 == p) =
        (validator values).2.filter (fun e => e.1 == p) ∧
      (createVisibilityAwareResolver o validator vis .warn conditionOf
          values).errors.filter (fun e => e.1 == p) =
        (validator values).2.filter (fun e => e.1 == p) ∧
      (∀ m : String, (p, m) ∈ (validator values).2 →
        (createVisibilityAwareResolver o validator vis .warn conditionOf
            values).logs ≠ [])) ∧
    (isInvisible vis p = false →
      ∀ mode : Mode,
        (createVisibilityAwareResolver o validator vis mode conditionOf
            values).errors.filter (fun e => e.1 == p) =
          (validator values).2.filter (fun e => e.1 == p)) := by
  rcases hv : validator values with ⟨outV, allErrors⟩
  constructor
  · intro hinv
    refine ⟨?_, ?_, ?_, ?_⟩
    · have := resolveErrors_filter_path o .skip vis conditionOf values p
        hcond allErrors
      simp only [hinv, true_and, if_pos rfl] at this
      simpa [createVisibilityAwareResolver, hv] using this
    · have := resolveErrors_filter_path o .validate vis conditionOf values p
        hcond allErrors
      simp only [hinv] at this
      simpa [createVisibilityAwareResolver, hv] using this
    · have := resolveErrors_filter_path o .warn vis conditionOf values p
        hcond allErrors
      simp only [hinv] at this
      simpa [createVisibilityAwareResolver, hv] using this
    · intro m hm
      have := resolveErrors_warn_logs o vis conditionOf values p m hcond hinv
        allErrors (by simpa [hv] using hm)
      simpa [createVisibilityAwareResolver, hv] using this
  · intro hvisb mode
    have := resolveErrors_filter_path o mode vis conditionOf values p
      hcond allErrors
    simp only [hvisb] at this
    simpa [createVisibilityAwareResolver, hv] using this

/-- Witness for C7: a validator reporting errors for both an invisible
field `f1` and a visible field `f2`; `skip` drops `f1`'s error, `validate`
keeps it, `warn` keeps it and logs, and `f2`'s error survives every mode. -/
theorem visibility_aware_resolver_witness :
    ((createVisibilityAwareResolver noOracle
        (fun v => (v, [("f1", "required"), ("f2", "bad")]))
        [("f1", false)] .skip (fun _ => none) .jnull).errors.filter
      (fun e => e.1 == "f1") = [] ∧
     (createVisibilityAwareResolver noOracle
        (fun v => (v, [("f1", "required"), ("f2", "bad")]))
        [("f1", false)] .validate (fun _ => none) .jnull).errors.filter
      (fun e => e.1 == "f1") = [("f1", "required")] ∧
     (createVisibilityAwareResolver noOracle
        (fun v => (v, [("f1", "required"), ("f2", "bad")]))
        [("f1", false)] .warn (fun _ => none) .jnull).logs ≠ []) ∧
    (createVisibilityAwareResolver noOracle
        (fun v => (v, [("f1", "required"), ("f2", "bad")]))
        [("f1", false)] .skip (fun _ => none) .jnull).errors.filter
      (fun e => e.1 == "f2") = [("f2", "bad")] := by
  have h1 := (visibility_aware_resolver noOracle
    (fun v => (v, [("f1", "required"), ("f2", "bad")]))
    [("f1", false)] (fun _ => none) .jnull "f1" rfl).1 (by decide)
  have h2 := (visibility_aware_resolver noOracle
    (fun v => (v, [("f1", "required"), ("f2", "bad")]))
    [("f1", false)] (fun _ => none) .jnull "f2" rfl).2 (by decide) .skip
  exact ⟨⟨h1.1, by simpa using h1.2.1,
    h1.2.2.2 "required" (by simp)⟩, by simpa using h2⟩

/-! ## The nested-shape compiler: lookup and update lemmas (C1, C2) -/

/-- `segLead` is reflexive. -/
theorem segLead_refl (p : List String) : segLead p p = true := by
  induction p with
  | nil => rfl
  | cons a as ih => simp [segLead, ih]

/-- `segLead` is antisymmetric. -/
theorem segLead_antisymm :
    ∀ {p q : List String}, segLead p q = true → segLead q p = true → p = q := by
  intro p
  induction p with
  | nil =>
      intro q h1 h2
      cases q with
      | nil => rfl
      | cons b bs => simp [segLead] at h2
  | cons a as ih =>
      intro q h1 h2
      cases q with
      | nil => simp [segLead] at h1
      | cons b bs =>
          simp only [segLead, Bool.and_eq_true, beq_iff_eq] at h1 h2
          rw [h1.1, ih h1.2 h2.2]

/-- `segLead p q` holds exactly when `q` extends `p` by some suffix. -/
theorem segLead_iff_append {p q : List String} :
    segLead p q = true ↔ ∃ r, q = p ++ r := by
  induction p generalizing q with
  | nil => simp [segLead]
  | cons a as ih =>
      cases q with
      | nil => simp [segLead]
      | cons b bs =>
          simp only [segLead, Bool.and_eq_true, beq_iff_eq, List.cons_append,
            List.cons.injEq]
          constructor
          · rintro ⟨rfl, h⟩
            obtain ⟨r, rfl⟩ := ih.mp h
            exact ⟨r, rfl, rfl⟩
          · rintro ⟨r, rfl, rfl⟩
            exact ⟨rfl, ih.mpr ⟨r, rfl⟩⟩

/-- Looking up the key just assigned finds the assigned node. -/
theorem lookupS_setEntry_self (k : String) (n : SchemaNode)
    (cs : List (String × SchemaNode)) :
    lookupS k (setEntry k n cs) = some n := by
  induction cs with
  | nil => simp [setEntry, lookupS]
  | cons e rest ih =>
      rcases e with ⟨k', n'⟩
      by_cases h : k' = k <;> simp [setEntry, lookupS, h, ih]

/-- Assigning one key leaves every other key's lookup unchanged. -/
theorem lookupS_setEntry_other {k k' : String} (h : k' ≠ k) (n : SchemaNode)
    (cs : List (String × SchemaNode)) :
    lookupS k' (setEntry k n cs) = lookupS k' cs := by
  induction cs with
  | nil =>
      simp only [setEntry, lookupS]
      rw [if_neg (Ne.symm h)]
  | cons e rest ih =>
      rcases e with ⟨k'', n''⟩
      by_cases h2 : k'' = k
      · subst h2
        simp only [setEntry, if_pos rfl, lookupS]
        rw [if_neg (Ne.symm h), if_neg (Ne.symm h)]
      · by_cases h3 : k'' = k' <;> simp [setEntry, lookupS, h2, h3, h, ih]

/-- Traversal of the empty shape finds nothing. -/
theorem getInShape_nil_shape (q : List String) : getInShape q [] = none := by
  rcases q with _ | ⟨k, _ | ⟨k2, rest⟩⟩ <;> simp [getInShape, lookupS]

/-! Conditional unfolding equations for `setInShape` and `getInShape`, one
per lookup outcome. -/

/-- Final segment, slot free: assign the leaf. -/
theorem setInShape_one_none {k : String} {cs : List (String × SchemaNode)}
    (full : List String) (v : ZodSchema) (hl : lookupS k cs = none) :
    setInShape full [k] cs v = .ok (setEntry k (.leaf v) cs) := by
  rw [setInShape, hl]

/-- Final segment, slot occupied: configuration error. -/
theorem setInShape_one_some {k : String} {cs : List (String × SchemaNode)}
    {n : SchemaNode} (full : List String) (v : ZodSchema)
    (hl : lookupS k cs = some n) :
    setInShape full [k] cs v = .error full := by
  rw [setInShape, hl]

/-- Descending segment, no entry: build the rest in a fresh mapping. -/
theorem setInShape_cons_none {k k2 : String} {rest : List String}
    {cs sub : List (String × SchemaNode)} (full : List String) (v : ZodSchema)
    (hl : lookupS k cs = none)
    (hs : setInShape full (k2 :: rest) [] v = .ok sub) :
    setInShape full (k :: k2 :: rest) cs v =
      .ok (setEntry k (.node sub) cs) := by
  rw [setInShape, hl]
  dsimp only
  rw [hs]

/-- Descending segment, no entry, failing below: propagate the error. -/
theorem setInShape_cons_none_err {k k2 : String} {rest : List String}
    {cs : List (String × SchemaNode)} {e : List String} (full : List String)
    (v : ZodSchema) (hl : lookupS k cs = none)
    (hs : setInShape full (k2 :: rest) [] v = .error e) :
    setInShape full (k :: k2 :: rest) cs v = .error e := by
  rw [setInShape, hl]
  dsimp only
  rw [hs]

/-- Descending segment through an existing mapping: recurse and replace. -/
theorem setInShape_cons_node {k k2 : String} {rest : List String}
    {cs sub sub' : List (String × SchemaNode)} (full : List String)
    (v : ZodSchema) (hl : lookupS k cs = some (.node sub))
    (hs : setInShape full (k2 :: rest) sub v = .ok sub') :
    setInShape full (k :: k2 :: rest) cs v =
      .ok (setEntry k (.node sub') cs) := by
  rw [setInShape, hl]
  dsimp only
  rw [hs]

/-- Descending segment through an existing mapping, failing below. -/
theorem setInShape_cons_node_err {k k2 : String} {rest : List String}
    {cs sub : List (String × SchemaNode)} {e : List String}
    (full : List String) (v : ZodSchema)
    (hl : lookupS k cs = some (.node sub))
    (hs : setInShape full (k2 :: rest) sub v = .error e) :
    setInShape full (k :: k2 :: rest) cs v = .error e := by
  rw [setInShape, hl]
  dsimp only
  rw [hs]

/-- Descending segment hitting a leaf: the collision error. -/
theorem setInShape_cons_leaf {k k2 : String} {rest : List String}
    {cs : List (String × SchemaNode)} {w : ZodSchema} (full : List String)
    (v : ZodSchema) (hl : lookupS k cs = some (.leaf w)) :
    setInShape full (k :: k2 :: rest) cs v = .error full := by
  rw [setInShape, hl]

/-- One-segment read is a plain lookup. -/
theorem getInShape_one (k : String) (cs : List (String × SchemaNode)) :
    getInShape [k] cs = lookupS k cs := rfl

/-- Multi-segment read through an existing mapping recurses. -/
theorem getInShape_cons_node {k k2 : String} {rest : List String}
    {cs sub : List (String × SchemaNode)}
    (hl : lookupS k cs = some (.node sub)) :
    getInShape (k :: k2 :: rest) cs = getInShape (k2 :: rest) sub := by
  rw [getInShape, hl]

/-- Multi-segment read finding no entry yields nothing. -/
theorem getInShape_cons_none {k k2 : String} {rest : List String}
    {cs : List (String × SchemaNode)} (hl : lookupS k cs = none) :
    getInShape (k :: k2 :: rest) cs = none := by
  rw [getInShape, hl]

/-- Multi-segment read blocked by a leaf yields nothing. -/
theorem getInShape_cons_leaf {k k2 : String} {rest : List String}
    {cs : List (String × SchemaNode)} {w : ZodSchema}
    (hl : lookupS k cs = some (.leaf w)) :
    getInShape (k :: k2 :: rest) cs = none := by
  rw [getInShape, hl]

/-- Installing any nonempty path into the empty shape succeeds. -/
theorem setInShape_nil_ok (full : List String) (v : ZodSchema) :
    ∀ p : List String, p ≠ [] →
      ∃ cs', setInShape full p [] v = .ok cs' := by
  intro p
  induction p with
  | nil => intro h; exact absurd rfl h
  | cons k tail ih =>
      intro _
      cases tail with
      | nil =>
          exact ⟨setEntry k (.leaf v) [],
            setInShape_one_none full v (by simp [lookupS])⟩
      | cons k2 rest =>
          obtain ⟨sub, hsub⟩ := ih (by simp)
          exact ⟨setEntry k (.node sub) [],
            setInShape_cons_none full v (by simp [lookupS]) hsub⟩

/-- After a successful install, reading the installed path back returns
exactly the installed leaf validator. -/
theorem setInShape_get_same (full : List String) (v : ZodSchema) :
    ∀ (p : List String) (cs cs' : List (String × SchemaNode)),
      setInShape full p cs v = .ok cs' →
      getInShape p cs' = some (.leaf v) := by
  intro p
  induction p with
  | nil => intro cs cs' h; simp [setInShape] at h
  | cons k tail ih =>
      intro cs cs' h
      cases tail with
      | nil =>
          rcases hl : lookupS k cs with _ | n
          · rw [setInShape_one_none full v hl] at h
            simp only [Except.ok.injEq] at h
            subst h
            rw [getInShape_one, lookupS_setEntry_self]
          · rw [setInShape_one_some full v hl] at h
            simp at h
      | cons k2 rest =>
          rcases hl : lookupS k cs with _ | n
          · rcases hs : setInShape full (k2 :: rest) [] v with e | sub
            · rw [setInShape_cons_none_err full v hl hs] at h
              simp at h
            · rw [setInShape_cons_none full v hl hs] at h
              simp only [Except.ok.injEq] at h
              subst h
              rw [getInShape_cons_node (lookupS_setEntry_self k _ cs)]
              exact ih [] sub hs
          · cases n with
            | leaf w =>
                rw [setInShape_cons_leaf full v hl] at h
                simp at h
            | node sub =>
                rcases hs : setInShape full (k2 :: rest) sub v with e | sub'
                · rw [setInShape_cons_node_err full v hl hs] at h
                  simp at h
                · rw [setInShape_cons_node full v hl hs] at h
                  simp only [Except.ok.injEq] at h
                  subst h
                  rw [getInShape_cons_node (lookupS_setEntry_self k _ cs)]
                  exact ih sub sub' hs

/-- A leaf validator occupying a strict position on a path blocks any
deeper install through it: the compiler surfaces the full offending path. -/
theorem setInShape_leaf_blocked (full : List String) (v' : ZodSchema) :
    ∀ (p r : List String) (cs : List (String × SchemaNode)) (w : ZodSchema),
      getInShape p cs = some (.leaf w) → r ≠ [] →
      setInShape full (p ++ r) cs v' = .error full := by
  intro p
  induction p with
  | nil => intro r cs w h _; simp [getInShape] at h
  | cons k tail ih =>
      intro r cs w h hr
      cases tail with
      | nil =>
          have hl : lookupS k cs = some (.leaf w) := by
            rw [getInShape_one] at h
            exact h
          cases r with
          | nil => exact absurd rfl hr
          | cons r1 rrest => exact setInShape_cons_leaf full v' hl
      | cons k2 rest =>
          rcases hl : lookupS k cs with _ | n
          · rw [getInShape_cons_none hl] at h
            simp at h
          · cases n with
            | leaf w2 =>
                rw [getInShape_cons_leaf hl] at h
                simp at h
            | node sub =>
                rw [getInShape_cons_node hl] at h
                have hrec := ih r sub w h hr
                rw [List.cons_append] at hrec ⊢
                exact setInShape_cons_node_err full v' hl hrec

/-- A split path always has at least one segment. -/
theorem splitChars_ne_nil : ∀ (l acc : List Char), splitChars l acc ≠ [] := by
  intro l
  induction l with
  | nil => intro acc; simp [splitChars]
  | cons c rest ih =>
      intro acc
      by_cases h : c = '.' <;> simp [splitChars, h, ih]

/-- `splitPath` never returns the empty segment list. -/
theorem splitPath_ne_nil (s : String) : splitPath s ≠ [] := by
  unfold splitPath
  intro h
  exact splitChars_ne_nil s.data [] (List.map_eq_nil_iff.mp h)

/-- Claim C2: once a leaf validator has been assigned at a path `q`, any
later install of a strictly deeper path `q ++ r` is a configuration error
carrying the full offending path — both at the `setNestedSchema` level and
through whole-schema synthesis, which fails for such a configuration
instead of producing a partial schema. -/
theorem nested_path_collision (o : JsOracle) :
    (∀ (full q r : List String) (cs cs' : List (String × SchemaNode))
        (v v' : ZodSchema), r ≠ [] → setInShape full q cs v = .ok cs' →
        setInShape (q ++ r) (q ++ r) cs' v' = .error (q ++ r)) ∧
    (∀ (f1 f2 : Field) (r : List String), r ≠ [] →
        splitPath f2.name = splitPath f1.name ++ r →
        generateZodSchema o [.field f1, .field f2] =
          .error (splitPath f2.name)) := by
  constructor
  · intro full q r cs cs' v v' hr hset
    have hget : getInShape q cs' = some (.leaf v) :=
      setInShape_get_same full v q cs cs' hset
    exact setInShape_leaf_blocked (q ++ r) v' q r cs' v hget hr
  · intro f1 f2 r hr hsplit
    obtain ⟨cs₁, hcs₁⟩ :=
      setInShape_nil_ok (splitPath f1.name) (buildFieldSchema o f1).1
        (splitPath f1.name) (splitPath_ne_nil f1.name)
    have hget : getInShape (splitPath f1.name) cs₁ =
        some (.leaf (buildFieldSchema o f1).1) :=
      setInShape_get_same (splitPath f1.name) (buildFieldSchema o f1).1
        (splitPath f1.name) [] cs₁ hcs₁
    have herr : setInShape (splitPath f2.name) (splitPath f2.name) cs₁
        (buildFieldSchema o f2).1 = .error (splitPath f2.name) := by
      rw [hsplit]
      exact setInShape_leaf_blocked (splitPath f1.name ++ r)
        (buildFieldSchema o f2).1 (splitPath f1.name) r cs₁
        (buildFieldSchema o f1).1 hget hr
    have hflat : flattenFields [.field f1, .field f2] = [f1, f2] := rfl
    unfold generateZodSchema
    rw [hflat]
    simp only [List.foldlM_cons, List.foldlM_nil]
    unfold setNestedSchema
    rw [hcs₁]
    show Except.bind (Except.ok cs₁) _ = _
    rw [Except.bind]
    rw [herr]
    rfl

/-- Witness for C2: installing `"a.b.c"` after `"a.b"` fails whole-schema
synthesis with the offending path. -/
theorem nested_path_collision_witness :
    generateZodSchema noOracle
        [.field collisionField1, .field collisionField2] =
      .error ["a", "b", "c"] := by
  have h := (nested_path_collision noOracle).2 collisionField1 collisionField2
    ["c"] (by decide) (by decide)
  exact h

/-! ## Round-trip machinery (C1) -/

/-- Reading the empty path finds nothing. -/
theorem getInShape_nil_path (cs : List (String × SchemaNode)) :
    getInShape [] cs = none := rfl

/-- A leaf on the way blocks any strictly deeper read. -/
theorem getInShape_leaf_blocked_deep :
    ∀ (p r : List String) (cs : List (String × SchemaNode)) (w : ZodSchema),
      getInShape p cs = some (.leaf w) → r ≠ [] →
      getInShape (p ++ r) cs = none := by
  intro p
  induction p with
  | nil => intro r cs w h _; simp [getInShape_nil_path] at h
  | cons k tail ih =>
      intro r cs w h hr
      cases tail with
      | nil =>
          have hl : lookupS k cs = some (.leaf w) := by
            rw [getInShape_one] at h
            exact h
          cases r with
          | nil => exact absurd rfl hr
          | cons r1 rrest => exact getInShape_cons_leaf hl
      | cons k2 rest =>
          rcases hl : lookupS k cs with _ | n
          · rw [getInShape_cons_none hl] at h
            simp at h
          · cases n with
            | leaf w2 =>
                rw [getInShape_cons_leaf hl] at h
                simp at h
            | node sub =>
                rw [getInShape_cons_node hl] at h
                have hrec := ih r sub w h hr
                rw [List.cons_append] at hrec ⊢
                exact (getInShape_cons_node hl).trans hrec

/-- Two shapes agreeing on a head key's entry agree on every read starting
with that key. -/
theorem getInShape_congr_head {q1 : String} {qtail : List String}
    {cs cs' : List (String × SchemaNode)}
    (h : lookupS q1 cs' = lookupS q1 cs) :
    getInShape (q1 :: qtail) cs' = getInShape (q1 :: qtail) cs := by
  cases qtail with
  | nil => rw [getInShape_one, getInShape_one, h]
  | cons q2 qrest =>
      rcases hl : lookupS q1 cs with _ | n
      · rw [getInShape_cons_none hl, getInShape_cons_none (h.trans hl)]
      · cases n with
        | leaf w =>
            rw [getInShape_cons_leaf hl, getInShape_cons_leaf (h.trans hl)]
        | node sub =>
            rw [getInShape_cons_node hl, getInShape_cons_node (h.trans hl)]

/-- Installing a path changes no read of a path that neither extends nor is
extended by it. -/
theorem setInShape_get_other (full : List String) (v : ZodSchema) :
    ∀ (p q : List String) (cs cs' : List (String × SchemaNode)),
      setInShape full p cs v = .ok cs' → q ≠ [] →
      segLead p q = false → segLead q p = false →
      getInShape q cs' = getInShape q cs := by
  intro p
  induction p with
  | nil => intro q cs cs' h _ _ _; simp [setInShape] at h
  | cons k tail ih =>
      intro q cs cs' h hq hpq hqp
      rcases q with _ | ⟨q1, qtail⟩
      · exact absurd rfl hq
      cases tail with
      | nil =>
          have hkq : q1 ≠ k := by
            intro he
            subst he
            simp [segLead] at hpq
          rcases hl : lookupS k cs with _ | n
          · rw [setInShape_one_none full v hl] at h
            simp only [Except.ok.injEq] at h
            subst h
            exact getInShape_congr_head (lookupS_setEntry_other hkq _ cs)
          · rw [setInShape_one_some full v hl] at h
            simp at h
      | cons k2 rest =>
          by_cases hk : q1 = k
          · subst hk
            have hqtail : qtail ≠ [] := by
              intro he
              subst he
              simp [segLead] at hqp
            have hpq' : segLead (k2 :: rest) qtail = false := by
              simpa [segLead] using hpq
            have hqp' : segLead qtail (k2 :: rest) = false := by
              simpa [segLead] using hqp
            rcases qtail with _ | ⟨q2, qrest⟩
            · exact absurd rfl hqtail
            rcases hl : lookupS q1 cs with _ | n
            · rcases hs : setInShape full (k2 :: rest) [] v with e | sub
              · rw [setInShape_cons_none_err full v hl hs] at h
                simp at h
              · rw [setInShape_cons_none full v hl hs] at h
                simp only [Except.ok.injEq] at h
                subst h
                rw [getInShape_cons_node (lookupS_setEntry_self q1 _ cs),
                  getInShape_cons_none hl]
                rw [ih (q2 :: qrest) [] sub hs (by simp) hpq' hqp']
                exact getInShape_nil_shape (q2 :: qrest)
            · cases n with
              | leaf w =>
                  rw [setInShape_cons_leaf full v hl] at h
                  simp at h
              | node sub =>
                  rcases hs : setInShape full (k2 :: rest) sub v with e | sub'
                  · rw [setInShape_cons_node_err full v hl hs] at h
                    simp at h
                  · rw [setInShape_cons_node full v hl hs] at h
                    simp only [Except.ok.injEq] at h
                    subst h
                    rw [getInShape_cons_node (lookupS_setEntry_self q1 _ cs),
                      getInShape_cons_node hl]
                    exact ih (q2 :: qrest) sub sub' hs (by simp) hpq' hqp'
          · rcases hl : lookupS k cs with _ | n
            · rcases hs : setInShape full (k2 :: rest) [] v with e | sub
              · rw [setInShape_cons_none_err full v hl hs] at h
                simp at h
              · rw [setInShape_cons_none full v hl hs] at h
                simp only [Except.ok.injEq] at h
                subst h
                exact getInShape_congr_head (lookupS_setEntry_other hk _ cs)
            · cases n with
              | leaf w =>
                  rw [setInShape_cons_leaf full v hl] at h
                  simp at h
              | node sub =>
                  rcases hs : setInShape full (k2 :: rest) sub v with e | sub'
                  · rw [setInShape_cons_node_err full v hl hs] at h
                    simp at h
                  · rw [setInShape_cons_node full v hl hs] at h
                    simp only [Except.ok.injEq] at h
                    subst h
                    exact getInShape_congr_head
                      (lookupS_setEntry_other hk _ cs)

/-- On the way down to a leaf, every strictly shorter nonempty position
holds an open mapping level. -/
theorem getInShape_lead_node :
    ∀ (q p : List String) (cs : List (String × SchemaNode)) (w : ZodSchema),
      getInShape p cs = some (.leaf w) → q ≠ [] → segLead q p = true →
      q ≠ p → ∃ sub, getInShape q cs = some (.node sub) := by
  intro q
  induction q with
  | nil => intro p cs w _ hq _ _; exact absurd rfl hq
  | cons q1 qtail ih =>
      intro p cs w h _ hlead hne
      rcases p with _ | ⟨p1, ptail⟩
      · simp [segLead] at hlead
      obtain ⟨rfl, hlead'⟩ :
          q1 = p1 ∧ segLead qtail ptail = true := by
        simpa [segLead, Bool.and_eq_true, beq_iff_eq] using hlead
      cases qtail with
      | nil =>
          rcases ptail with _ | ⟨p2, prest⟩
          · exact absurd rfl hne
          rcases hl : lookupS q1 cs with _ | n
          · rw [getInShape_cons_none hl] at h
            simp at h
          · cases n with
            | leaf w2 =>
                rw [getInShape_cons_leaf hl] at h
                simp at h
            | node sub =>
                exact ⟨sub, by rw [getInShape_one]; exact hl⟩
      | cons q2 qrest =>
          rcases ptail with _ | ⟨p2, prest⟩
          · simp [segLead] at hlead'
          rcases hl : lookupS q1 cs with _ | n
          · rw [getInShape_cons_none hl] at h
            simp at h
          · cases n with
            | leaf w2 =>
                rw [getInShape_cons_leaf hl] at h
                simp at h
            | node sub =>
                rw [getInShape_cons_node hl] at h
                have hne' : q2 :: qrest ≠ p2 :: prest := by
                  intro he
                  exact hne (by rw [he])
                obtain ⟨sub', hsub'⟩ :=
                  ih (p2 :: prest) sub w h (by simp) hlead' hne'
                exact ⟨sub', by rw [getInShape_cons_node hl]; exact hsub'⟩

/-- Installing a nonempty path succeeds whenever no strict position on the
way holds a leaf and the final slot is free. -/
theorem setInShape_ok_of_free (full : List String) (v : ZodSchema) :
    ∀ (p : List String) (cs : List (String × SchemaNode)), p ≠ [] →
      (∀ q, q ≠ [] → segLead q p = true → q ≠ p →
        ∀ w, getInShape q cs ≠ some (.leaf w)) →
      getInShape p cs = none →
      ∃ cs', setInShape full p cs v = .ok cs' := by
  intro p
  induction p with
  | nil => intro cs h _ _; exact absurd rfl h
  | cons k tail ih =>
      intro cs _ hfree hnone
      cases tail with
      | nil =>
          rw [getInShape_one] at hnone
          exact ⟨_, setInShape_one_none full v hnone⟩
      | cons k2 rest =>
          rcases hl : lookupS k cs with _ | n
          · obtain ⟨sub, hsub⟩ :=
              setInShape_nil_ok full v (k2 :: rest) (by simp)
            exact ⟨_, setInShape_cons_none full v hl hsub⟩
          · cases n with
            | leaf w =>
                have := hfree [k] (by simp)
                  (by simp [segLead]) (by simp) w
                rw [getInShape_one] at this
                exact absurd hl this
            | node sub =>
                have hnone' : getInShape (k2 :: rest) sub = none := by
                  rw [getInShape_cons_node hl] at hnone
                  exact hnone
                have hfree' : ∀ q, q ≠ [] → segLead q (k2 :: rest) = true →
                    q ≠ k2 :: rest → ∀ w,
                    getInShape q sub ≠ some (.leaf w) := by
                  intro q hq hqlead hqne w hleaf
                  rcases q with _ | ⟨u1, urest⟩
                  · exact absurd rfl hq
                  refine hfree (k :: u1 :: urest) (by simp)
                    (by simpa [segLead] using hqlead) ?_ w ?_
                  · intro he
                    exact hqne (by injection he)
                  · rw [getInShape_cons_node hl]
                    exact hleaf
                obtain ⟨sub', hsub'⟩ :=
                  ih sub (by simp) hfree' hnone'
                exact ⟨_, setInShape_cons_node full v hl hsub'⟩

/-- A first-match lookup that succeeds is unchanged by appending entries. -/
theorem lookupJ_append_some {k : String} {fs : List (String × JValue)}
    {v : JValue} (h : lookupJ k fs = some v) (l : List (String × JValue)) :
    lookupJ k (fs ++ l) = some v := by
  induction fs with
  | nil => simp [lookupJ] at h
  | cons e rest ih =>
      rcases e with ⟨k', v'⟩
      by_cases hk : k' = k
      · subst hk
        simp only [lookupJ, if_pos rfl] at h ⊢
        exact h
      · simp only [List.cons_append, lookupJ, if_neg hk] at h ⊢
        exact ih h

/-- Unfolding: acceptance at one open level, cons case. -/
theorem acceptsFields_cons (o : JsOracle) (k : String) (c : SchemaNode)
    (rest : List (String × SchemaNode)) (fs : List (String × JValue)) :
    acceptsFields o ((k, c) :: rest) fs =
      ((match lookupJ k fs with
        | some val => acceptsNode o c val
        | none => false) && acceptsFields o rest fs) := rfl

/-- An open level accepting an object keeps accepting it when extra fields
are appended: every tracked key was already found before the extras. -/
theorem acceptsFields_append (o : JsOracle) :
    ∀ (sub : List (String × SchemaNode)) (fs l : List (String × JValue)),
      acceptsFields o sub fs = true → acceptsFields o sub (fs ++ l) = true := by
  intro sub
  induction sub with
  | nil => intro fs l _; rfl
  | cons e rest ih =>
      intro fs l h
      rcases e with ⟨k, c⟩
      rw [acceptsFields_cons] at h ⊢
      rcases hlj : lookupJ k fs with _ | val
      · rw [hlj] at h
        simp at h
      · rw [hlj] at h
        simp only [Bool.and_eq_true] at h
        rw [lookupJ_append_some hlj l]
        simp only [Bool.and_eq_true]
        exact ⟨h.1, ih fs l h.2⟩

/-- Inside an admissible path family, the pivot is incomparable with every
earlier path. -/
theorem okPaths_pairs :
    ∀ (l1 : List (List String)) (p : List String) (l2 : List (List String)),
      okPaths (l1 ++ p :: l2) = true →
      ∀ q ∈ l1, segLead q p = false ∧ segLead p q = false := by
  intro l1
  induction l1 with
  | nil => intro p l2 _ q hq; exact absurd hq (List.not_mem_nil q)
  | cons a l1' ih =>
      intro p l2 h q hq
      rw [List.cons_append] at h
      have h' : (l1' ++ p :: l2).all
            (fun q2 => !segLead a q2 && !segLead q2 a) = true ∧
          okPaths (l1' ++ p :: l2) = true := by
        simpa [okPaths, Bool.and_eq_true] using h
      rcases List.mem_cons.mp hq with rfl | hq'
      · have := List.all_eq_true.mp h'.1 p (by simp)
        simp only [Bool.and_eq_true, Bool.not_eq_true'] at this
        exact this
      · exact ih p l2 h'.2 q hq'

/-- Unfolding: the install loop on a head entry whose install succeeds. -/
theorem setAll_cons_ok {p : List String} {v : ZodSchema}
    {rest : List (List String × ZodSchema)}
    {cs cs' : List (String × SchemaNode)}
    (h : setInShape p p cs v = .ok cs') :
    setAll ((p, v) :: rest) cs = setAll rest cs' := by
  rw [setAll, h]

/-- The install-loop invariant: starting from a shape whose leaves are
exactly the processed entries and whose mapping levels all lie strictly on
the way to some processed entry, installing an admissible batch of further
entries succeeds and re-establishes the same characterisation for the
union. -/
theorem setAll_invariant :
    ∀ (entries processed : List (List String × ZodSchema))
      (cs : List (String × SchemaNode)),
      (∀ p ∈ processed.map Prod.fst ++ entries.map Prod.fst, p ≠ []) →
      okPaths (processed.map Prod.fst ++ entries.map Prod.fst) = true →
      (∀ q w, getInShape q cs = some (.leaf w) → (q, w) ∈ processed) →
      (∀ q sub, getInShape q cs = some (.node sub) →
        ∃ pv ∈ processed, segLead q pv.1 = true ∧ q ≠ pv.1) →
      (∀ pv ∈ processed, getInShape pv.1 cs = some (.leaf pv.2)) →
      ∃ S, setAll entries cs = .ok S ∧
        (∀ q w, getInShape q S = some (.leaf w) →
          (q, w) ∈ processed ++ entries) ∧
        (∀ q sub, getInShape q S = some (.node sub) →
          ∃ pv ∈ processed ++ entries, segLead q pv.1 = true ∧ q ≠ pv.1) ∧
        (∀ pv ∈ processed ++ entries,
          getInShape pv.1 S = some (.leaf pv.2)) := by
  intro entries
  induction entries with
  | nil =>
      intro processed cs _ _ hA hB hC
      refine ⟨cs, rfl, ?_, ?_, ?_⟩
      · simpa only [List.append_nil] using hA
      · simpa only [List.append_nil] using hB
      · simpa only [List.append_nil] using hC
  | cons ev rest ih =>
      rcases ev with ⟨p, v⟩
      intro processed cs hne hok hA hB hC
      have hmaps : processed.map Prod.fst ++
          (((p, v) :: rest).map Prod.fst) =
          processed.map Prod.fst ++ p :: rest.map Prod.fst := by simp
      rw [hmaps] at hne hok
      have hpne : p ≠ [] := hne p (List.mem_append.mpr
        (Or.inr (List.mem_cons_self p (rest.map Prod.fst))))
      have hpairs := okPaths_pairs (processed.map Prod.fst) p
        (rest.map Prod.fst) hok
      have hfree : ∀ q, q ≠ [] → segLead q p = true → q ≠ p →
          ∀ w, getInShape q cs ≠ some (.leaf w) := by
        intro q _ hql _ w hleaf
        have hmem := hA q w hleaf
        have hx := (hpairs q (List.mem_map.mpr ⟨(q, w), hmem, rfl⟩)).1
        rw [hql] at hx
        simp at hx
      have hnone : getInShape p cs = none := by
        rcases hg : getInShape p cs with _ | n
        · rfl
        · cases n with
          | leaf w =>
              have hmem := hA p w hg
              have hx := (hpairs p (List.mem_map.mpr ⟨(p, w), hmem, rfl⟩)).1
              rw [segLead_refl] at hx
              simp at hx
          | node sub =>
              obtain ⟨pv, hpv, hlead, _⟩ := hB p sub hg
              have hx := (hpairs pv.1 (List.mem_map.mpr ⟨pv, hpv, rfl⟩)).2
              rw [hlead] at hx
              simp at hx
      obtain ⟨cs', hset⟩ := setInShape_ok_of_free p v p cs hpne hfree hnone
      have hleafp : getInShape p cs' = some (.leaf v) :=
        setInShape_get_same p v p cs cs' hset
      have hCnew : ∀ pv ∈ processed ++ [(p, v)],
          getInShape pv.1 cs' = some (.leaf pv.2) := by
        intro pv hpv
        rcases List.mem_append.mp hpv with hl | hr
        · have hq := hpairs pv.1 (List.mem_map.mpr ⟨pv, hl, rfl⟩)
          have hne1 : pv.1 ≠ [] :=
            hne pv.1 (List.mem_append.mpr
              (Or.inl (List.mem_map.mpr ⟨pv, hl, rfl⟩)))
          rw [setInShape_get_other p v p pv.1 cs cs' hset hne1 hq.2 hq.1]
          exact hC pv hl
        · have hpv' : pv = (p, v) := by simpa using hr
          rw [hpv']
          exact hleafp
      have hAnew : ∀ q w, getInShape q cs' = some (.leaf w) →
          (q, w) ∈ processed ++ [(p, v)] := by
        intro q w hq
        by_cases hq0 : q = []
        · rw [hq0, getInShape_nil_path] at hq
          simp at hq
        by_cases hqp : q = p
        · subst hqp
          rw [hleafp] at hq
          simp only [Option.some.injEq, SchemaNode.leaf.injEq] at hq
          exact List.mem_append.mpr (Or.inr (by simp [hq]))
        by_cases h1 : segLead q p = true
        · obtain ⟨sub, hsub⟩ :=
            getInShape_lead_node q p cs' v hleafp hq0 h1 hqp
          rw [hsub] at hq
          simp at hq
        by_cases h2 : segLead p q = true
        · obtain ⟨rr, rfl⟩ := segLead_iff_append.mp h2
          have hrr : rr ≠ [] := fun he => hqp (by simp [he])
          rw [getInShape_leaf_blocked_deep p rr cs' v hleafp hrr] at hq
          simp at hq
        · have h1' : segLead q p = false := by simpa using h1
          have h2' : segLead p q = false := by simpa using h2
          rw [setInShape_get_other p v p q cs cs' hset hq0 h2' h1'] at hq
          exact List.mem_append.mpr (Or.inl (hA q w hq))
      have hBnew : ∀ q sub, getInShape q cs' = some (.node sub) →
          ∃ pv ∈ processed ++ [(p, v)], segLead q pv.1 = true ∧ q ≠ pv.1 := by
        intro q sub hq
        by_cases hq0 : q = []
        · rw [hq0, getInShape_nil_path] at hq
          simp at hq
        by_cases hqp : q = p
        · subst hqp
          rw [hleafp] at hq
          simp at hq
        by_cases h1 : segLead q p = true
        · exact ⟨(p, v), List.mem_append.mpr (Or.inr (by simp)), h1, hqp⟩
        by_cases h2 : segLead p q = true
        · obtain ⟨rr, rfl⟩ := segLead_iff_append.mp h2
          have hrr : rr ≠ [] := fun he => hqp (by simp [he])
          rw [getInShape_leaf_blocked_deep p rr cs' v hleafp hrr] at hq
          simp at hq
        · have h1' : segLead q p = false := by simpa using h1
          have h2' : segLead p q = false := by simpa using h2
          rw [setInShape_get_other p v p q cs cs' hset hq0 h2' h1'] at hq
          obtain ⟨pv, hpv, hx⟩ := hB q sub hq
          exact ⟨pv, List.mem_append.mpr (Or.inl hpv), hx⟩
      have hlisteq : (processed ++ [(p, v)]).map Prod.fst ++
          rest.map Prod.fst =
          processed.map Prod.fst ++ p :: rest.map Prod.fst := by simp
      obtain ⟨S, hS, hA', hB', hC'⟩ := ih (processed ++ [(p, v)]) cs'
        (by rw [hlisteq]; exact hne) (by rw [hlisteq]; exact hok)
        hAnew hBnew hCnew
      refine ⟨S, ?_, ?_, ?_, ?_⟩
      · rw [setAll_cons_ok hset]
        exact hS
      · intro q w hq
        have := hA' q w hq
        simpa [List.mem_append, List.mem_cons, or_assoc] using this
      · intro q sub hq
        obtain ⟨pv, hpv, hx⟩ := hB' q sub hq
        exact ⟨pv, by
          simpa [List.mem_append, List.mem_cons, or_assoc] using hpv, hx⟩
      · intro pv hpv
        exact hC' pv (by
          simpa [List.mem_append, List.mem_cons, or_assoc] using hpv)

/-- Unfolding: acceptance of an object at a mapping level is field
acceptance. -/
theorem acceptsNode_node (o : JsOracle) (sub : List (String × SchemaNode))
    (fs : List (String × JValue)) :
    acceptsNode o (.node sub) (.jobj fs) = acceptsFields o sub fs := rfl

/-- Segment-level core of the round-trip property: for any family of
nonempty, pairwise non-nested segment paths with assigned validators,
installing them all succeeds, reading each path back returns exactly the
assigned validator, and every strictly intermediate level is an open
mapping. -/
theorem setAll_roundtrip (o : JsOracle)
    (entries : List (List String × ZodSchema))
    (hne : ∀ p ∈ entries.map Prod.fst, p ≠ [])
    (hok : okPaths (entries.map Prod.fst) = true) :
    ∃ S, setAll entries [] = .ok S ∧
      (∀ pv ∈ entries, getInShape pv.1 S = some (.leaf pv.2)) ∧
      (∀ pv ∈ entries, ∀ q, q ≠ [] → segLead q pv.1 = true → q ≠ pv.1 →
        ∃ sub, getInShape q S = some (.node sub) ∧
          ∀ fs k val, acceptsFields o sub fs = true → lookupS k sub = none →
            parseNode o (.node sub) (.jobj (fs ++ [(k, val)])) =
              some (.jobj (fs ++ [(k, val)]))) := by
  obtain ⟨S, hS, _, _, hC⟩ := setAll_invariant entries [] []
    hne hok
    (fun q w h => by rw [getInShape_nil_shape] at h; simp at h)
    (fun q sub h => by rw [getInShape_nil_shape] at h; simp at h)
    (fun pv hpv => absurd hpv (List.not_mem_nil pv))
  refine ⟨S, hS, fun pv hpv => hC pv hpv, ?_⟩
  intro pv hpv q hq hlead hneq
  have hleaf := hC pv hpv
  obtain ⟨sub, hsub⟩ := getInShape_lead_node q pv.1 S pv.2 hleaf hq hlead hneq
  refine ⟨sub, hsub, ?_⟩
  intro fs k val hacc _
  have hacc' := acceptsFields_append o sub fs [(k, val)] hacc
  rw [parseNode, acceptsNode_node, hacc']
  rfl

/-- The string-level loop agrees with the segment-level loop after
dot-splitting every path. -/
theorem setAllNamed_eq_setAll :
    ∀ (entries : List (String × ZodSchema))
      (cs : List (String × SchemaNode)),
      setAllNamed entries cs =
        setAll (entries.map (fun e => (splitPath e.1, e.2))) cs := by
  intro entries
  induction entries with
  | nil => intro cs; rfl
  | cons e rest ih =>
      intro cs
      rcases e with ⟨name, v⟩
      rw [setAllNamed, List.map_cons, setAll]
      unfold setNestedSchema
      rcases h : setInShape (splitPath name) (splitPath name) cs v with er | cs'
      · rfl
      · exact ih cs'

/-- Claim C1: for any set of dot-delimited paths, none an initial segment
of another, with assigned validators, installing each with
`setNestedSchema` and reading it back with `getNestedSchema` returns the
originally assigned validator; and every strictly intermediate object
level created along the way is open — an object it accepts keeps parsing
successfully, the extra data passed through unchanged, after any extra
sibling key is added. -/
theorem nested_schema_roundtrip (o : JsOracle)
    (entries : List (String × ZodSchema))
    (hok : okPaths (entries.map (fun e => splitPath e.1)) = true) :
    ∃ S, setAllNamed entries [] = .ok S ∧
      (∀ pv ∈ entries, getNestedSchema S pv.1 = some (.leaf pv.2)) ∧
      (∀ pv ∈ entries, ∀ q, q ≠ [] → segLead q (splitPath pv.1) = true →
        q ≠ splitPath pv.1 →
        ∃ sub, getInShape q S = some (.node sub) ∧
          ∀ fs k val, acceptsFields o sub fs = true → lookupS k sub = none →
            parseNode o (.node sub) (.jobj (fs ++ [(k, val)])) =
              some (.jobj (fs ++ [(k, val)]))) := by
  have hmaps : (entries.map (fun e => (splitPath e.1, e.2))).map Prod.fst =
      entries.map (fun e => splitPath e.1) := by
    simp [List.map_map]
  have hne : ∀ p ∈ (entries.map (fun e => (splitPath e.1, e.2))).map Prod.fst,
      p ≠ [] := by
    intro p hp
    rw [hmaps] at hp
    obtain ⟨e, _, rfl⟩ := List.mem_map.mp hp
    exact splitPath_ne_nil e.1
  obtain ⟨S, hS, hget, hopen⟩ := setAll_roundtrip o
    (entries.map (fun e => (splitPath e.1, e.2))) hne (by rw [hmaps]; exact hok)
  refine ⟨S, by rw [setAllNamed_eq_setAll]; exact hS, ?_, ?_⟩
  · intro pv hpv
    exact hget (splitPath pv.1, pv.2)
      (List.mem_map.mpr ⟨pv, hpv, rfl⟩)
  · intro pv hpv q hq hlead hneq
    exact hopen (splitPath pv.1, pv.2)
      (List.mem_map.mpr ⟨pv, hpv, rfl⟩) q hq hlead hneq

/-- Witness for C1 at three concrete dotted paths sharing the `source`
level. -/
theorem nested_schema_roundtrip_witness :
    ∃ S, setAllNamed roundtripEntries [] = .ok S ∧
      (∀ pv ∈ roundtripEntries, getNestedSchema S pv.1 = some (.leaf pv.2)) ∧
      (∀ pv ∈ roundtripEntries, ∀ q, q ≠ [] →
        segLead q (splitPath pv.1) = true → q ≠ splitPath pv.1 →
        ∃ sub, getInShape q S = some (.node sub) ∧
          ∀ fs k val,
            acceptsFields noOracle sub fs = true → lookupS k sub = none →
            parseNode noOracle (.node sub) (.jobj (fs ++ [(k, val)])) =
              some (.jobj (fs ++ [(k, val)]))) :=
  nested_schema_roundtrip noOracle roundtripEntries (by decide)

end DynForm
